import Mathlib

/-!
Verification of the ModX migration engine (`modx/core/migrator.py` and
`modx/core/migrators/`) against its natural-language specification.

The Python code is shallowly embedded:

* file contents are `List Char` (`Content`), mirroring Python `str`
  operations (`strip`, `split`, `splitlines`, `replace`, `startswith`, ...)
  character by character;
* filesystem trees are association lists from segment paths to contents
  (`FS`), mirroring the service tree and the temporary working copy;
* external collaborators (the AI model backend together with the `git
  apply` binary it needs, `difflib`, and the validator tool chain) are
  oracle fields of an `Env` record, exactly along the collaborator
  boundary drawn in section 6 of the specification;
* each function of the migrator is translated into a Lean function of the
  same name (in lowerCamelCase) over these types.

All definitions are executable, so concrete counterexamples evaluate by
`decide` / `rfl`.
-/

namespace Modx

/-! ## Python string primitives on `List Char` -/

/-- File contents, modelling a Python `str` as its list of characters. -/
abbrev Content := List Char

/-- Characters stripped by Python `str.strip()` / recognised by `\s`
(ASCII subset; the sources only ever produce ASCII whitespace). -/
def pyIsSpace (c : Char) : Bool :=
  c = ' ' || c = '\t' || c = '\n' || c = '\r' || c = '\x0b' || c = '\x0c'

/-- Python `s.lstrip()` (no argument: strip leading whitespace). -/
def pyLstrip (s : Content) : Content := s.dropWhile pyIsSpace

/-- Python `s.rstrip()` (no argument: strip trailing whitespace). -/
def pyRstrip (s : Content) : Content := (s.reverse.dropWhile pyIsSpace).reverse

/-- Python `s.strip()`. -/
def pyStrip (s : Content) : Content := pyRstrip (pyLstrip s)

/-- Python `s.lstrip(' ')`: strip leading spaces only. -/
def pyLstripSpace (s : Content) : Content := s.dropWhile (· = ' ')

/-- Python `len(line) - len(line.lstrip(' '))`: the leading-space count. -/
def leadingSpaces (s : Content) : Nat := (s.takeWhile (· = ' ')).length

/-- Python `s.startswith(pre)`. -/
def pyStartswith (s pre : Content) : Bool := pre.isPrefixOf s

/-- Python `s.endswith(suf)`. -/
def pyEndswith (s suf : Content) : Bool := suf.isSuffixOf s

/-- Python `pat in s` (substring test). -/
def containsSub (pat s : Content) : Bool := decide (pat <:+: s)

/-- Python `s.replace(pat, rep, 1)`: replace the first occurrence. -/
def replaceFirst (pat rep : Content) : Content → Content
  | [] => if pat.isPrefixOf ([] : Content) then rep else []
  | s@(c :: t) =>
    if pat.isPrefixOf s then rep ++ s.drop pat.length
    else c :: replaceFirst pat rep t

/-- Helper for `replaceAll`; the fuel (initially the string length) only
bounds the recursion depth and is never exhausted, keeping the recursion
structural so that the kernel can evaluate it. -/
def replaceAllFuel (pat rep : Content) : Nat → Content → Content
  | _, [] => []
  | 0, s => s
  | n + 1, s@(c :: t) =>
    if pat ≠ [] ∧ pat.isPrefixOf s then rep ++ replaceAllFuel pat rep n (s.drop pat.length)
    else c :: replaceAllFuel pat rep n t

/-- Python `s.replace(pat, rep)` (no count: replace every occurrence,
continuing after each replacement). -/
def replaceAll (pat rep s : Content) : Content := replaceAllFuel pat rep s.length s

/-- Python `s.split(pat, 1)` for a non-character separator: the chunk
before the first occurrence and the chunk after it. -/
def splitFirstOn (pat : Content) : Content → Content × Content
  | [] => ([], [])
  | s@(c :: t) =>
    if pat.isPrefixOf s then ([], s.drop pat.length)
    else
      let r := splitFirstOn pat t
      (c :: r.1, r.2)

/-- Python `'\n'.join(lines)`. -/
def joinLines (ls : List Content) : Content := List.intercalate ['\n'] ls

/-- Python `s.splitlines()`: split on newlines, dropping the trailing
empty chunk a trailing newline would otherwise produce.  (Python also
splits on `\r`, `\v`, ...; the sources only produce `\n`.) -/
def pySplitlines (s : Content) : List Content :=
  if s = [] then []
  else
    let parts := s.splitOn '\n'
    if parts.getLast? = some [] then parts.dropLast else parts

/-- Count of positions where two line lists differ, modelling
`sum(1 for a, b in zip(xs, ys) if a != b)`. -/
def zipCountNe (xs ys : List Content) : Nat :=
  (xs.zip ys).countP (fun p => !(p.1 == p.2))

-- Sanity checks of the string model (concrete evaluations).
example : pyStrip "  print x  ".toList = "print x".toList := by decide
example : replaceFirst "print ".toList "print(".toList "  print x".toList
    = "  print(x".toList := by decide
example : pySplitlines "a\nb\n".toList = ["a".toList, "b".toList] := by decide
example : pySplitlines "".toList = [] := by decide
example : splitFirstOn "==".toList "flask==0.12".toList
    = ("flask".toList, "0.12".toList) := by decide
example : replaceAll "javax.".toList "jakarta.".toList "import javax.x;".toList
    = "import jakarta.x;".toList := by decide

/-! ## Path model

Paths are lists of segments.  `resolveSegs` models `Path.resolve()` on an
absolute path (no symlinks in the model): `..` pops a segment, `.` is
dropped.  `pathStr` renders an absolute path the way `str(Path(...))`
does, which is what the migrator's `startswith` containment check
(`migrator.py` line 176) compares. -/

/-- A path as a list of segments (`Path.parts` without the root). -/
abbrev Seg := String

/-- A relative path under a tree root. -/
abbrev RelPath := List Seg

/-- `Path.resolve()` on `/`-rooted segments: `..` pops, `.` is dropped. -/
def resolveSegs (p : List Seg) : List Seg :=
  p.foldl (fun acc s => if s = ".." then acc.dropLast else if s = "." then acc else acc ++ [s]) []

/-- `str(path)` for an absolute path: `/seg1/seg2/...` as characters. -/
def pathStr (p : List Seg) : Content := (p.map (fun s => '/' :: s.toList)).flatten

/-- The baseline deny-set of `_apply_changes_to_temp` /
`_apply_changes_to_original` (`migrator.py` lines 112 and 799). -/
def baselineDeny : List String :=
  [".pytest_cache", "__pycache__", ".venv", "node_modules", "dist", "build"]

/-- `is_denied` on a relative path: some segment is in the deny-set
(`migrator.py` lines 125-130 for the temp phase; lines 827/833 use the
same any-part test during commit). -/
def isDeniedRel (deny : List String) (rel : RelPath) : Bool :=
  rel.any (fun s => deny.contains s)

/-- Entries of `.modxignore` / `.gitignore` that extend the deny-set:
non-blank, non-comment lines ending in `/`, with the slash stripped
(`migrator.py` lines 113-123 and 800-819). -/
def parseIgnoreDirs : Option Content → List String
  | none => []
  | some c =>
    ((pySplitlines c).map pyStrip).filterMap (fun l =>
      if l = [] ∨ l.head? = some '#' then none
      else if l.getLast? = some '/' then some (String.mk l.dropLast)
      else none)

/-- The patch-phase write guard of `_apply_changes_to_temp`
(`migrator.py` lines 174-187): the target is not denied, the *string*
rendering of its resolved path starts with the string rendering of the
working root (`str(target.resolve()).startswith(str(work_path.resolve()))`),
and the path exists in the original service tree
(`(self.service_path / rel).exists()`, supplied as an oracle since a
`..`-path may point at files outside the modelled tree). -/
def patchWriteAllowed (deny : List String) (workRoot : List Seg)
    (origFileExists : RelPath → Bool) (rel : RelPath) : Bool :=
  !isDeniedRel deny rel
    && pyStartswith (pathStr (resolveSegs (workRoot ++ rel))) (pathStr workRoot)
    && origFileExists rel

/-- The commit-phase destination guard of `_apply_changes_to_original`
(`migrator.py` lines 839-847): `service_root_resolved` must be among
`dst.resolve().parent.parents` or equal to that parent, i.e. the root is
a (not necessarily proper) segment prefix of the resolved destination's
parent. -/
def commitGuard (root : List Seg) (rel : RelPath) : Bool :=
  root.isPrefixOf ((resolveSegs (root ++ rel)).dropLast)

-- Sanity checks of the path model.
example : resolveSegs ["tmp", "mx", "service", "..", "serviceX", "a.py"]
    = ["tmp", "mx", "serviceX", "a.py"] := by decide
example : pathStr ["tmp", "mx"] = "/tmp/mx".toList := by decide
example : isDeniedRel baselineDeny ["src", "__pycache__", "a.py"] = true := by decide
example : commitGuard ["home", "svc"] ["pkg", "a.py"] = true := by decide

/-! ## Deterministic transformers: content level

These mirror `_fix_python_print_statements`, `_add_basic_type_hints`,
the inline `es6_syntax` / `update_dependencies` fallbacks of
`_apply_changes_to_temp`, `_auto_fix_whitespace`, the marker utilities of
`migrators/utils.py`, and the `var` phase of
`JSMigrator._transform_js_content`. -/

/-- The typing-import insertion shared by `_fix_python_print_statements`
and `_add_basic_type_hints` (`migrator.py` lines 535-540 and 579-584):
if `-> Any` occurs and the typing import does not, splice
`from typing import Any\n\n` at offset 0, or just after the first
newline when the content starts with a shebang. -/
def pyImportFix (s : Content) : Content :=
  if containsSub "-> Any".toList s && !containsSub "from typing import Any".toList s then
    let i := if pyStartswith s "#!".toList then
               match s.findIdx? (· == '\n') with
               | some idx => idx + 1
               | none => 0
             else 0
    s.take i ++ "from typing import Any\n\n".toList ++ s.drop i
  else s

/-- The trigger of the print-statement rewrite (`migrator.py` line 530):
`stripped.startswith('print ') and not stripped.endswith(')')`. -/
def printCond (l : Content) : Bool :=
  pyStartswith (pyStrip l) "print ".toList && !((pyStrip l).getLast? == some ')')

/-- One line of `_fix_python_print_statements` (`migrator.py` line 531):
`line.replace('print ', 'print(', 1) + ')'` when triggered. -/
def fixPrintLine (l : Content) : Content :=
  if printCond l then replaceFirst "print ".toList "print(".toList l ++ [')'] else l

/-- The per-file content transformation of `_fix_python_print_statements`
(`migrator.py` lines 524-542): split on `\n`, rewrite triggered lines,
and, only when some line was modified, rejoin and apply the
typing-import fix; otherwise the content is left untouched. -/
def fixPrintContent (c : Content) : Content :=
  let lines := c.splitOn '\n'
  if lines.any printCond then pyImportFix (joinLines (lines.map fixPrintLine)) else c

/-- The idempotence marker token (`migrators/utils.py` line 33). -/
def markerToken : Content := "MODX_DETERMINISTIC_FALLBACK".toList

/-- `has_marker` (`migrators/utils.py` lines 32-33). -/
def hasMarker (c : Content) : Bool := containsSub markerToken c

/-- The language tags accepted by `insert_marker`; `apply_safe_transformation`
maps every configured language into this set (default `js`). -/
inductive MLang
  | py
  | js
  | ts
  | go
deriving DecidableEq

/-- The Python marker comment line inserted by `insert_marker`. -/
def pyMarkerLine : Content :=
  "# MODX_DETERMINISTIC_FALLBACK: aggressive modernization applied".toList

/-- The C-style marker comment (with newline) prepended by `insert_marker`
for `js`/`ts`/`go`. -/
def jsMarkerPre : Content :=
  "// MODX_DETERMINISTIC_FALLBACK: aggressive modernization applied\n".toList

/-- `insert_marker` (`migrators/utils.py` lines 36-49). -/
def insertMarker (c : Content) (lang : MLang) : Content :=
  if hasMarker c then c
  else match lang with
    | .py =>
      let lines2 := match pySplitlines c with
        | [] => [pyMarkerLine]
        | l0 :: rest =>
          if pyStartswith l0 "#!".toList then l0 :: pyMarkerLine :: rest
          else pyMarkerLine :: l0 :: rest
      joinLines lines2 ++ ['\n']
    | _ => jsMarkerPre ++ c

/-- `SafeAggressiveTransformer.apply_safe_transformation`
(`migrators/utils.py` lines 141-158).  `validOk` is the external
`validate_syntax` collaborator (`ast.parse` for Python, constantly true
for the other languages); `none` models the "no change" return. -/
def applySafeTransformation (validOk : Content → Bool) (lang : MLang)
    (transformFunc : Content → Content) (c : Content) : Option Content :=
  if hasMarker c then none
  else
    let n := transformFunc c
    if n = c then none
    else if !validOk n then none
    else some (insertMarker n lang)

/-- The trigger of the inline `es6_syntax` fallback (`migrator.py`
line 390): `stripped.startswith('var ')`. -/
def es6Cond (l : Content) : Bool := pyStartswith (pyLstrip l) "var ".toList

/-- One line of the inline `es6_syntax` fallback (`migrator.py`
lines 389-392): keep the indent, replace the first `var ` of the
stripped remainder with `let `. -/
def es6Line (l : Content) : Content :=
  let stripped := pyLstrip l
  if es6Cond l then
    l.take (l.length - stripped.length) ++ replaceFirst "var ".toList "let ".toList stripped
  else l

/-- The trigger of the `update_dependencies` requirements bump
(`migrator.py` lines 362-371): a non-blank, non-comment line containing
`==` whose version part starts with `0.`. -/
def reqBumpB (ln : Content) : Bool :=
  let s := pyStrip ln
  !(s.isEmpty || s.head? == some '#')
    && containsSub "==".toList s
    && pyStartswith (splitFirstOn "==".toList s).2 "0.".toList

/-- One line of the requirements bump: `f"{name}>=1.0"` for a triggered
line, the original line otherwise. -/
def bumpReqLine (ln : Content) : Content :=
  if reqBumpB ln then (splitFirstOn "==".toList (pyStrip ln)).1 ++ ">=1.0".toList else ln

/-- The `has_return` scan of `_add_basic_type_hints` (`migrator.py`
lines 565-572): walk forward; a same-or-lower-indent `def` stops the scan
with no return found, a `return ` inside the stripped line reports one. -/
def typeHintScan (ind : Nat) : List Content → Bool
  | [] => false
  | l :: rest =>
    if pyStartswith (pyStrip l) "def ".toList && decide (leadingSpaces l ≤ ind) then false
    else if containsSub "return ".toList (pyStrip l) then true
    else typeHintScan ind rest

/-- The trigger of `_add_basic_type_hints` for one line (`migrator.py`
lines 562-574), given the lines after it. -/
def typeHintCond (l : Content) (rest : List Content) : Bool :=
  pyStartswith (pyStrip l) "def ".toList
    && !containsSub "->".toList l
    && ((pyStrip l).getLast? == some ':')
    && !typeHintScan (leadingSpaces l) rest

/-- One line of `_add_basic_type_hints` (`migrator.py` line 575):
`line.replace('):', ') -> Any:', 1)` when triggered. -/
def typeHintLine (l : Content) (rest : List Content) : Content :=
  if typeHintCond l rest then replaceFirst "):".toList ") -> Any:".toList l else l

/-- Whether some line of the file triggers `_add_basic_type_hints`
(the `modified` flag). -/
def typeHintTriggers : List Content → Bool
  | [] => false
  | l :: rest => typeHintCond l rest || typeHintTriggers rest

/-- All lines of `_add_basic_type_hints`: each line is rewritten against
the (original) lines that follow it, exactly as the index-based loop
reads `lines[j]` for `j > i` before those positions are modified. -/
def typeHintLines : List Content → List Content
  | [] => []
  | l :: rest => typeHintLine l rest :: typeHintLines rest

/-- The top-level-`def` test of `_auto_fix_whitespace` (`migrator.py`
line 770). -/
def isTopDef (l : Content) : Bool :=
  (pyStartswith l "def ".toList || pyStartswith l "async def ".toList)
    && (l.length - (pyLstripSpace l).length == 0)

/-- The line pass of `_auto_fix_whitespace` (`migrator.py` lines 766-782),
reformulated functionally: `b` counts the blank lines immediately before
the current position; a top-level `def` preceded by fewer than two blanks
gets the missing blanks inserted, and the index then skips past the
insertion exactly as `i += (2 - blank_count)` does. -/
def fixWsLines : List Content → Nat → List Content
  | [], _ => []
  | l :: rest, b =>
    if isTopDef l ∧ b < 2 then List.replicate (2 - b) [] ++ l :: fixWsLines rest 0
    else l :: fixWsLines rest (if pyStrip l = [] then b + 1 else 0)

/-! ### The `var` phase of `JSMigrator._transform_js_content`
(`js_migrator.py` lines 43-66).  The regexes `var\s+(\w+)\s*=`,
`var\s+(\w+)` and `rf'\b{v}\s*='` are hand-rolled: the character classes
are disjoint at every junction, so the greedy left-to-right scan below is
exactly the regex search. -/

/-- Regex `\w` (ASCII model). -/
def isWordChar (c : Char) : Bool := c.isAlphanum || c = '_'

/-- Match `var\s+(\w+)\s*=` anchored at the head of `l`, returning the
captured name. -/
def varAssignAt (l : Content) : Option Content :=
  if pyStartswith l "var".toList then
    if ((l.drop 3).takeWhile pyIsSpace).isEmpty then none
    else if (((l.drop 3).dropWhile pyIsSpace).takeWhile isWordChar).isEmpty then none
    else if ((((l.drop 3).dropWhile pyIsSpace).dropWhile isWordChar).dropWhile
        pyIsSpace).head? == some '=' then
      some (((l.drop 3).dropWhile pyIsSpace).takeWhile isWordChar)
    else none
  else none

/-- `re.search(r'var\s+(\w+)\s*=', l)`: first match over all positions. -/
def findVarAssign : Content → Option Content
  | [] => none
  | s@(_ :: t) =>
    match varAssignAt s with
    | some w => some w
    | none => findVarAssign t

/-- Match `var\s+(\w+)` anchored at the head of `l`. -/
def varDeclAt (l : Content) : Option Content :=
  if pyStartswith l "var".toList then
    if ((l.drop 3).takeWhile pyIsSpace).isEmpty then none
    else if (((l.drop 3).dropWhile pyIsSpace).takeWhile isWordChar).isEmpty then none
    else some (((l.drop 3).dropWhile pyIsSpace).takeWhile isWordChar)
  else none

/-- `re.search(r'var\s+(\w+)', l)`: first match over all positions. -/
def findVarDecl : Content → Option Content
  | [] => none
  | s@(_ :: t) =>
    match varDeclAt s with
    | some w => some w
    | none => findVarDecl t

/-- The `let`/`const` choice recorded for each captured variable. -/
inductive VarKind
  | vconst
  | vlet
deriving DecidableEq

/-- Rendering of a `VarKind` as the keyword used in the rewrite. -/
def kindChars : VarKind → Content
  | .vconst => "const".toList
  | .vlet => "let".toList

/-- Python-dict assignment `d[k] = v` on an insertion-ordered
association list. -/
def dictSet (d : List (Content × VarKind)) (k : Content) (v : VarKind) :
    List (Content × VarKind) :=
  if d.any (fun e => e.1 == k) then d.map (fun e => if e.1 == k then (k, v) else e)
  else d ++ [(k, v)]

/-- The first loop of `_transform_js_content` (`js_migrator.py`
lines 46-55): initialized declarations default to `const`, bare
declarations to `let`. -/
def scanVarsLine (d : List (Content × VarKind)) (l : Content) :
    List (Content × VarKind) :=
  if containsSub "var ".toList l then
    match findVarAssign l with
    | some v => dictSet d v .vconst
    | none =>
      match findVarDecl l with
      | some v => dictSet d v .vlet
      | none => d
  else d

/-- All captured variables with their initial kinds. -/
def scanVars (lines : List Content) : List (Content × VarKind) :=
  lines.foldl scanVarsLine []

/-- After a candidate occurrence of `v`, regex `\s*=` must follow. -/
def matchesEqAfter (r : Content) : Bool :=
  (r.dropWhile pyIsSpace).head? == some '='

/-- The `\b` boundary before the variable: position 0 or a non-word
previous character. -/
def boundaryOk : Option Char → Bool
  | none => true
  | some p => !isWordChar p

/-- `re.search(rf'\b{v}\s*=', l)`, scanning with the previous character
as boundary context. -/
def reassignScan (v : Content) : Option Char → Content → Bool
  | _, [] => false
  | prev, s@(c :: t) =>
    (boundaryOk prev && v.isPrefixOf s && matchesEqAfter (s.drop v.length))
      || reassignScan v (some c) t

/-- One reassignment test of the second loop (`js_migrator.py`
lines 56-60). -/
def lineReassigns (v l : Content) : Bool := reassignScan v none l

/-- The second loop of `_transform_js_content`: any line containing `=`
and matching `rf'\b{v}\s*='` downgrades `v` to `let`. -/
def finalVarKinds (lines : List Content) : List (Content × VarKind) :=
  (scanVars lines).map (fun e =>
    if lines.any (fun l => l.contains '=' && lineReassigns e.1 l) then (e.1, .vlet) else e)

/-- The third loop of `_transform_js_content` (`js_migrator.py`
lines 61-65): the first dict entry whose `var {name}` occurs in the line
is rewritten (all occurrences, Python `str.replace` with no count), then
the loop breaks. -/
def applyVarKinds (d : List (Content × VarKind)) (l : Content) : Content :=
  match d.find? (fun e => containsSub ("var ".toList ++ e.1) l) with
  | some e => replaceAll ("var ".toList ++ e.1) (kindChars e.2 ++ ' ' :: e.1) l
  | none => l

/-- The `var` phase of `_transform_js_content` (`js_migrator.py`
lines 43-66; the later template-literal and arrow phases do not touch
declaration keywords). -/
def transformJsVars (c : Content) : Content :=
  let lines := pySplitlines c
  joinLines (lines.map (applyVarKinds (finalVarKinds lines)))

-- Sanity checks of the transformers.
example : fixPrintContent "print x".toList = "print(x)".toList := by decide
example : es6Line "  var x = 1;".toList = "  let x = 1;".toList := by decide
example : bumpReqLine "flask==0.12".toList = "flask>=1.0".toList := by decide
example : transformJsVars "var x = 1;\nconsole.log(x);".toList
    = "let x = 1;\nconsole.log(x);".toList := by decide

/-! ## Filesystem trees -/

/-- A file tree: an ordered association list from relative segment paths
to contents (the list order models the directory-walk order). -/
abbrev FS := List (RelPath × Content)

/-- Read a file (`None` when absent). -/
def fsFind (fs : FS) (p : RelPath) : Option Content :=
  (fs.find? (fun e => e.1 == p)).map (·.2)

/-- Write a file: overwrite in place when present, append otherwise. -/
def fsSet (fs : FS) (p : RelPath) (c : Content) : FS :=
  match fs with
  | [] => [(p, c)]
  | e :: t => if e.1 == p then (p, c) :: t else e :: fsSet t p c

/-- The final segment of a path (the file name). -/
def lastSeg (p : RelPath) : Seg := p.getLastD ""

/-- `Path.suffix`: the part of the name from the last dot, empty when the
only dot is leading or trailing or there is none. -/
def pySuffix (name : Content) : Content :=
  if (name.reverse.takeWhile (fun c => !(c == '.'))).length == name.length then []
  else if (name.reverse.takeWhile (fun c => !(c == '.'))).length == 0 then []
  else if (name.reverse.takeWhile (fun c => !(c == '.'))).length == name.length - 1 then []
  else '.' :: (name.reverse.takeWhile (fun c => !(c == '.'))).reverse

/-- Whether a path's name ends with the given extension (`rglob('*.ext')`
membership for files). -/
def nameEndsWith (p : RelPath) (ext : String) : Bool :=
  ext.toList.isSuffixOf (lastSeg p).toList

/-- Rendering of a relative path as the string stored in a Change record
(`str(path.relative_to(work_path))`). -/
def joinPath (p : RelPath) : String := String.intercalate "/" p

-- Sanity checks of the suffix model (matching `pathlib.PurePath.suffix`).
example : pySuffix "a.py".toList = ".py".toList := by decide
example : pySuffix ".gitignore".toList = [] := by decide
example : pySuffix "archive.tar.gz".toList = ".gz".toList := by decide
example : pySuffix "Dockerfile".toList = [] := by decide

/-! ## Commit: `_apply_changes_to_original` (`migrator.py` lines 797-875) -/

/-- The commit allow-list (`migrator.py` line 821 plus the
`dockerfile`/`makefile` name exception of line 836). -/
def allowedExts : List Content :=
  [".py".toList, ".js".toList, ".ts".toList, ".java".toList, ".go".toList,
   ".json".toList, ".toml".toList, ".md".toList, ".ini".toList, ".cfg".toList,
   ".yml".toList, ".yaml".toList, ".xml".toList]

/-- Whether a file name passes the commit allow-list. -/
def allowedFile (name : Content) : Bool :=
  allowedExts.contains (pySuffix name)
    || ["dockerfile".toList, "makefile".toList].contains (name.map Char.toLower)

/-- `dst.with_suffix(dst.suffix + '.modx_backup')` (`migrator.py`
line 862): since the new suffix extends the old one, the composition
always appends `.modx_backup` to the name. -/
def backupSeg (s : Seg) : Seg := s ++ ".modx_backup"

/-- The backup destination for a committed path. -/
def backupPath (p : RelPath) : RelPath := p.dropLast ++ [backupSeg (lastSeg p)]

/-- One file of the commit walk (`migrator.py` lines 830-873): skip
denied or non-allow-listed or out-of-tree destinations; skip byte-equal
files; otherwise back up an existing destination and overwrite. -/
def commitStep (root : List Seg) (deny : List String) (acc : FS) (e : RelPath × Content) : FS :=
  if isDeniedRel deny e.1 then acc
  else if !allowedFile (lastSeg e.1).toList then acc
  else if !commitGuard root e.1 then acc
  else match fsFind acc e.1 with
    | some old => if old == e.2 then acc else fsSet (fsSet acc (backupPath e.1) old) e.1 e.2
    | none => fsSet acc e.1 e.2

/-- `_apply_changes_to_original`: fold the commit step over the working
copy's files (the walk order is the list order); only the original tree
is mutated, only by creates and overwrites. -/
def applyChangesToOriginal (root : List Seg) (deny : List String) (work orig : FS) : FS :=
  work.foldl (commitStep root deny) orig

/-! ## Change records and final deduplication
(`migrator.py` lines 504-517) -/

/-- A Change record. -/
structure Change where
  file : String
  ctype : String
  linesChanged : Nat
deriving DecidableEq

/-- Merge a duplicate into the first existing entry for the same file,
keeping the maximum `lines_changed` (`migrator.py` lines 509-512). -/
def bumpFirst (c : Change) : List Change → List Change
  | [] => []
  | e :: rest =>
    if e.file == c.file then { e with linesChanged := max e.linesChanged c.linesChanged } :: rest
    else e :: bumpFirst c rest

/-- One step of the deduplication loop; the `seen` set of the source is
exactly the file set of the accumulated output. -/
def dedupStep (acc : List Change) (c : Change) : List Change :=
  if acc.any (fun e => e.file == c.file) then bumpFirst c acc else acc ++ [c]

/-- The final deduplication pass over the collected changes. -/
def dedupChanges (cs : List Change) : List Change := cs.foldl dedupStep []

/-! ## The patch pipeline: `_apply_changes_to_temp`
(`migrator.py` lines 106-517) -/

/-- A plan step (`step.get(...)` with Python falsy defaults: an absent
list key and an empty list are indistinguishable, as in the source's
truthiness tests). -/
structure Step where
  id : String := ""
  title : String := ""
  files_affected : List RelPath := []
  files : List RelPath := []
  estimated_loc : Nat := 0
  patch : List (RelPath × Content) := []
deriving DecidableEq

/-- A modernization plan (only the step list drives the pipeline; the
summary fields are display-only). -/
structure Plan where
  steps : List Step
deriving DecidableEq

/-- The external world of one run, along the collaborator boundary of
spec section 6: the model backend availability, the whole AI-diff branch
for one step (model + `git apply`, which writes only under the working
copy), the `java_modernize` fallback's regex engine pass over the working
copy, `difflib`-based line counting, the validator tool chain, the
operator's prompt reply, the temp/service roots chosen by the OS, and
existence of on-disk paths outside the modelled service tree. -/
structure Env where
  aiAvailable : Bool
  aiStep : Step → List RelPath → FS → Option (FS × List Change)
  javaModernize : FS → FS × List Change
  diffLines : Content → Content → Nat
  validatorsPass : FS → Bool
  promptResponse : String
  workRoot : List Seg
  serviceRoot : List Seg
  diskExists : RelPath → Bool

/-- `(self.service_path / f).exists()`: in-tree paths are looked up in
the original tree; paths with dot segments may leave the modelled tree
and are delegated to the disk oracle. -/
def origExistsB (env : Env) (orig : FS) (rel : RelPath) : Bool :=
  if rel.any (fun s => s == ".." || s == ".") then env.diskExists rel
  else (fsFind orig rel).isSome

/-- The deny-set of the temp phase: baseline plus `.modxignore` entries
(`migrator.py` lines 112-123). -/
def tempDeny (orig : FS) : List String :=
  baselineDeny ++ parseIgnoreDirs (fsFind orig [".modxignore"])

/-- The deny-set of the commit phase: baseline plus `.gitignore` plus
`.modxignore` entries (`migrator.py` lines 799-819). -/
def commitDeny (orig : FS) : List String :=
  baselineDeny ++ parseIgnoreDirs (fsFind orig [".gitignore"])
    ++ parseIgnoreDirs (fsFind orig [".modxignore"])

/-- A DROP_STEP notification naming the missing declared targets
(`migrator.py` line 246). -/
structure DropWarning where
  stepId : String
  missing : List RelPath
deriving DecidableEq

/-- The state threaded through the step loop. -/
structure PipeState where
  work : FS
  changes : List Change
  warnings : List DropWarning
deriving DecidableEq

/-- One explicit patch entry (`migrator.py` lines 173-201): guarded by
`patchWriteAllowed`, then written to the working copy with an `ai_patch`
Change whose line count comes from `difflib` (zero when the target did
not previously exist, matching `record_change`'s `old is None` case). -/
def applyPatchEntry (env : Env) (orig : FS) (deny : List String)
    (st : FS × List Change) (entry : RelPath × Content) : FS × List Change :=
  if patchWriteAllowed deny env.workRoot (origExistsB env orig) entry.1 then
    let old := fsFind st.1 (resolveSegs entry.1)
    (fsSet st.1 (resolveSegs entry.1) entry.2,
     st.2 ++ [{ file := joinPath entry.1, ctype := "ai_patch",
                linesChanged := match old with
                  | some o => env.diffLines o entry.2
                  | none => 0 }])
  else st

/-- The patch loop over all steps (`migrator.py` lines 170-201). -/
def applyPatches (env : Env) (orig : FS) (deny : List String)
    (st : FS × List Change) (steps : List Step) : FS × List Change :=
  steps.foldl (fun st step => step.patch.foldl (applyPatchEntry env orig deny) st) st

/-- Target resolution for a step (`migrator.py` lines 204-222): declared
`files_affected`, else declared `files`, else the id-specific defaults. -/
def stepTargets (deny : List String) (w : FS) (step : Step) : List RelPath :=
  if step.files_affected ≠ [] then step.files_affected
  else if step.files ≠ [] then step.files
  else if step.id == "es6_syntax" then
    (w.map (·.1)).filter (fun p => nameEndsWith p ".js" && !isDeniedRel deny p)
  else if step.id == "update_js_deps" || step.id == "update_dependencies" then
    if (fsFind w [("package.json" : String)]).isSome then [["package.json"]]
    else if (fsFind w [("requirements.txt" : String)]).isSome then [["requirements.txt"]]
    else []
  else if step.id == "go_modules" then
    if (fsFind w [("go.mod" : String)]).isSome then [["go.mod"]] else []
  else if step.id == "java_modernize" then
    (w.map (·.1)).filter (fun p => nameEndsWith p ".java" && !isDeniedRel deny p)
  else []

/-- Normalization of the targets handed to the AI branch (`migrator.py`
lines 224-231): resolve under the working root, keep those passing the
string-prefix test whose lexical `relative_to` succeeds (a segment
prefix) and is not denied. -/
def normStepTargets (env : Env) (deny : List String) (targets : List RelPath) : List RelPath :=
  targets.filterMap (fun t =>
    let p := resolveSegs (env.workRoot ++ t)
    if pyStartswith (pathStr p) (pathStr env.workRoot)
        && env.workRoot.isPrefixOf p
        && !isDeniedRel deny (p.drop env.workRoot.length)
    then some (p.drop env.workRoot.length) else none)

/-- The deterministic fallback dispatch (`migrator.py` lines 350-502).
The transformer bodies are below; `java_modernize`'s regex pass is the
`Env` collaborator, and `go_modules` is an explicit no-op (`continue`). -/
def fixPyPrintFile (acc : FS × List Change) (e : RelPath × Content) : FS × List Change :=
  if nameEndsWith e.1 ".py" then
    if (e.2.splitOn '\n').any printCond then
      let nc := fixPrintContent e.2
      (fsSet acc.1 e.1 nc,
       acc.2 ++ [{ file := joinPath e.1, ctype := "python_print_fix",
                   linesChanged := zipCountNe (e.2.splitOn '\n') (nc.splitOn '\n') }])
    else acc
  else acc

/-- `_fix_python_print_statements` over the working copy (all `*.py`
files, with no deny filter, as in the source's bare `rglob`). -/
def fixPyPrintFS (w : FS) : FS × List Change := w.foldl fixPyPrintFile (w, [])

/-- One file of `_add_basic_type_hints` (`migrator.py` lines 556-591). -/
def addTypeHintsFile (acc : FS × List Change) (e : RelPath × Content) : FS × List Change :=
  let lines := e.2.splitOn '\n'
  if typeHintTriggers lines then
    let nc := pyImportFix (joinLines (typeHintLines lines))
    (fsSet acc.1 e.1 nc,
     acc.2 ++ [{ file := joinPath e.1, ctype := "type_hints", linesChanged := 1 }])
  else acc

/-- `_add_basic_type_hints`: only the first two `*.py` files
(`py_files[:2]`). -/
def addTypeHintsFS (w : FS) : FS × List Change :=
  ((w.filter (fun e => nameEndsWith e.1 ".py")).take 2).foldl addTypeHintsFile (w, [])

/-- The `update_dependencies` fallback (`migrator.py` lines 354-378). -/
def updateReqsFS (deny : List String) (w : FS) : FS × List Change :=
  match fsFind w [("requirements.txt" : String)] with
  | some old =>
    if isDeniedRel deny [("requirements.txt" : String)] then (w, [])
    else
      let lines := pySplitlines old
      if lines.any reqBumpB then
        let nc := joinLines (lines.map bumpReqLine) ++ ['\n']
        (fsSet w [("requirements.txt" : String)] nc,
         [{ file := "requirements.txt", ctype := "update_dependencies",
            linesChanged := zipCountNe (pySplitlines old) (pySplitlines nc) }])
      else (w, [])
  | none => (w, [])

/-- One file of the inline `es6_syntax` fallback (`migrator.py`
lines 380-399); note the trailing-newline quirk: a newline is appended
exactly when the old content did not end with one. -/
def es6File (deny : List String) (acc : FS × List Change) (e : RelPath × Content) :
    FS × List Change :=
  if nameEndsWith e.1 ".js" then
    if isDeniedRel deny e.1 then acc
    else
      let lines := pySplitlines e.2
      if lines.any es6Cond then
        let nc := joinLines (lines.map es6Line)
                    ++ (if e.2.getLast? == some '\n' then [] else ['\n'])
        (fsSet acc.1 e.1 nc,
         acc.2 ++ [{ file := joinPath e.1, ctype := "es6_syntax",
                     linesChanged := zipCountNe (pySplitlines e.2) (pySplitlines nc) }])
      else acc
  else acc

/-- The inline `es6_syntax` fallback over the working copy. -/
def es6FS (deny : List String) (w : FS) : FS × List Change := w.foldl (es6File deny) (w, [])

/-- The deterministic dispatch for one step when the AI path produced
nothing. -/
def fallbackStep (env : Env) (deny : List String) (st : PipeState) (step : Step) : PipeState :=
  if step.id == "python_print_function" then
    let r := fixPyPrintFS st.work
    ⟨r.1, st.changes ++ r.2, st.warnings⟩
  else if step.id == "add_type_hints" then
    let r := addTypeHintsFS st.work
    ⟨r.1, st.changes ++ r.2, st.warnings⟩
  else if step.id == "update_dependencies" then
    let r := updateReqsFS deny st.work
    ⟨r.1, st.changes ++ r.2, st.warnings⟩
  else if step.id == "es6_syntax" then
    let r := es6FS deny st.work
    ⟨r.1, st.changes ++ r.2, st.warnings⟩
  else if step.id == "java_modernize" then
    let r := env.javaModernize st.work
    ⟨r.1, st.changes ++ r.2, st.warnings⟩
  else st

/-- One step of the main loop (`migrator.py` lines 203-502): resolve
targets; when the model backend is available and the step declares
targets, drop the whole step with a warning if any declared target is
missing from the original tree (lines 239-247); otherwise let the AI
branch run (it skips the fallback exactly when it changed something,
`changed_any`); otherwise dispatch the deterministic fallback. -/
def processStep (env : Env) (orig : FS) (deny : List String) (st : PipeState) (step : Step) :
    PipeState :=
  let targets := stepTargets deny st.work step
  let missing := targets.filter (fun f => !origExistsB env orig f)
  if env.aiAvailable && !targets.isEmpty && !missing.isEmpty then
    { st with warnings := st.warnings ++ [⟨step.id, missing⟩] }
  else
    match (if env.aiAvailable then env.aiStep step (normStepTargets env deny targets) st.work
           else none) with
    | some r => ⟨r.1, st.changes ++ r.2, st.warnings⟩
    | none => fallbackStep env deny st step

/-- `_apply_changes_to_temp`: the patch loop, then the step loop, then
the per-file deduplication of the collected changes. -/
def applyChangesToTemp (env : Env) (orig : FS) (plan : Plan) (work : FS) : PipeState :=
  let deny := tempDeny orig
  let p := applyPatches env orig deny (work, []) plan.steps
  let st := plan.steps.foldl (processStep env orig deny) ⟨p.1, p.2, []⟩
  ⟨st.work, dedupChanges st.changes, st.warnings⟩

/-! ## `migrate` (`migrator.py` lines 26-96) -/

/-- One file of `_auto_fix_whitespace` (`migrator.py` lines 760-787). -/
def autoFixFile (acc : FS) (e : RelPath × Content) : FS :=
  if nameEndsWith e.1 ".py" then
    let lines := pySplitlines e.2
    let lines2 := fixWsLines lines 0
    if lines2 == lines then acc else fsSet acc e.1 (joinLines lines2 ++ ['\n'])
  else acc

/-- `_auto_fix_whitespace` over the working copy (the `modified` flag of
the source is equivalent to the line pass having changed the lines). -/
def autoFixWhitespace (w : FS) : FS := w.foldl autoFixFile w

/-- The per-step size gate (`migrator.py` lines 58-62):
`step.get('estimated_loc', 0) > 500` for some step. -/
def sizeGateFails (plan : Plan) : Bool := plan.steps.any (fun s => 500 < s.estimated_loc)

/-- The approval test (`migrator.py` lines 73-78):
`response.lower().strip() in ['y', 'yes']`. -/
def approvalYes (response : String) : Bool :=
  let s := pyStrip (response.toList.map Char.toLower)
  s == "y".toList || s == "yes".toList

/-- The working-copy state after the patch pipeline, starting from a
fresh `copytree` of the original. -/
def tempState (env : Env) (plan : Plan) (orig : FS) : PipeState :=
  applyChangesToTemp env orig plan orig

/-- `CodeMigrator.migrate` (`migrator.py` lines 26-96): returns the
success flag and the resulting original tree.  No step before the
approved commit touches the original tree; the diff previews and the
audit artifacts stay in the temp directory and are elided. -/
def migrate (env : Env) (plan : Plan) (orig : FS) (interactive applyFlag : Bool) :
    Bool × FS :=
  if plan.steps.isEmpty then (true, orig)
  else
    let st := tempState env plan orig
    if st.changes.isEmpty then (false, orig)
    else
      let work2 := autoFixWhitespace st.work
      if !env.validatorsPass work2 then (false, orig)
      else if sizeGateFails plan then (false, orig)
      else if interactive then
        if approvalYes env.promptResponse then
          (true, applyChangesToOriginal env.serviceRoot (commitDeny orig) work2 orig)
        else (false, orig)
      else if applyFlag then
        (true, applyChangesToOriginal env.serviceRoot (commitDeny orig) work2 orig)
      else (true, orig)

/-! ## Concrete fixtures used by witnesses and counterexamples -/

/-- A concrete environment: model backend unavailable, validators
passing, operator answering `n`. -/
def envNoAI : Env where
  aiAvailable := false
  aiStep := fun _ _ _ => none
  javaModernize := fun w => (w, [])
  diffLines := fun _ _ => 0
  validatorsPass := fun _ => true
  promptResponse := "n"
  workRoot := ["tmp", "mx", "service"]
  serviceRoot := ["home", "svc"]
  diskExists := fun _ => false

/-- A one-step plan dispatching the print-statement fallback. -/
def plan1 : Plan := ⟨[{ id := "python_print_function" }]⟩

/-- A one-step plan whose id has no registered handler, so the pipeline
produces zero changes. -/
def planNop : Plan := ⟨[{ id := "mystery_step" }]⟩

/-- A service tree with a single Python 2 style file. -/
def origA : FS := [([("a.py" : String)], "print x".toList)]

/-! ## C1: aborts preserve the original tree -/

/-- Claim C1: for every initial original tree and every plan, whenever
`migrate` aborts (zero changes, validation-gate failure, size-policy
violation, or user rejection — exactly the paths that return failure),
it returns without committing and the original service tree is
byte-identical before and after the run: every mutation performed before
`_apply_changes_to_original` targets only the working copy, which the
embedding reflects because no phase before the approved commit receives
the original tree writably. -/
theorem migrate_abort_preserves_original (env : Env) (plan : Plan) (orig : FS)
    (i a : Bool) (h : (migrate env plan orig i a).1 = false) :
    (migrate env plan orig i a).2 = orig := by
  have hshape : (migrate env plan orig i a).2 = orig ∨ (migrate env plan orig i a).1 = true := by
    unfold migrate
    split_ifs <;> try simp_all
    all_goals
      by_cases hc : (tempState env plan orig).changes = [] <;>
        cases hv : env.validatorsPass (autoFixWhitespace (tempState env plan orig).work) <;>
        simp_all
  rcases hshape with h2 | h1
  · exact h2
  · rw [h] at h1
    cases h1

/-- Witness for C1 at a concrete aborting run (the nop plan produces
zero changes, so the run aborts). -/
theorem migrate_abort_preserves_original_witness :
    (migrate envNoAI planNop origA true false).1 = false ∧
    (migrate envNoAI planNop origA true false).2 = origA :=
  ⟨by decide, migrate_abort_preserves_original _ _ _ _ _ (by decide)⟩

/-! ## C4: the 500-LOC size gate -/

/-- Claim C4: a plan containing a step with `estimated_loc > 500` always
makes `migrate` abort with failure and an untouched original (the gate
sits after the validation gate and before the approval prompt in
`migrate`'s definition, so a run that gets past validation is stopped
there); a step with `estimated_loc = 500` never triggers the gate by
itself, since the gate tests strict inequality. -/
theorem migrate_size_gate (env : Env) (plan : Plan) (orig : FS) (i a : Bool) :
    ((∃ s ∈ plan.steps, 500 < s.estimated_loc) →
      migrate env plan orig i a = (false, orig)) ∧
    ((∀ s ∈ plan.steps, s.estimated_loc ≤ 500) → sizeGateFails plan = false) := by
  constructor
  · intro h
    have hne : plan.steps.isEmpty = false := by
      rcases h with ⟨s, hs, _⟩
      exact List.isEmpty_eq_false.mpr (List.ne_nil_of_mem hs)
    have hgate : sizeGateFails plan = true := by
      rcases h with ⟨s, hs, hloc⟩
      exact List.any_eq_true.mpr ⟨s, hs, by simpa using hloc⟩
    unfold migrate
    split_ifs <;> simp_all
  · intro h
    unfold sizeGateFails
    rw [List.any_eq_false]
    intro s hs
    simpa using Nat.not_lt.mpr (h s hs)

/-- A plan carrying an oversized step. -/
def planBig : Plan := ⟨[{ id := "python_print_function", estimated_loc := 501 }]⟩

/-- A plan whose single step sits exactly at the 500 limit. -/
def plan500 : Plan := ⟨[{ id := "python_print_function", estimated_loc := 500 }]⟩

/-- Witness for C4: the 501-LOC plan aborts with the original untouched,
and the 500-LOC plan does not trip the gate. -/
theorem migrate_size_gate_witness :
    migrate envNoAI planBig origA true false = (false, origA) ∧
    sizeGateFails plan500 = false :=
  ⟨(migrate_size_gate envNoAI planBig origA true false).1
      ⟨{ id := "python_print_function", estimated_loc := 501 }, by decide, by decide⟩,
   (migrate_size_gate envNoAI plan500 origA true false).2 (by decide)⟩

/-! ## C10: empty plan and zero-change runs -/

/-- Claim C10: an empty plan makes `migrate` return success immediately
(before the working copy is even created); a non-empty plan whose patch
pipeline yields zero Change records makes it return failure before
validation, approval, or any mutation of the original tree. -/
theorem migrate_empty_plan_zero_changes (env : Env) (plan : Plan) (orig : FS) (i a : Bool) :
    (plan.steps = [] → migrate env plan orig i a = (true, orig)) ∧
    (plan.steps ≠ [] → (tempState env plan orig).changes = [] →
      migrate env plan orig i a = (false, orig)) := by
  constructor
  · intro h
    unfold migrate
    simp [h]
  · intro h hc
    have hne : plan.steps.isEmpty = false := List.isEmpty_eq_false.mpr h
    unfold migrate
    split_ifs <;> simp_all

/-- Witness for C10: a concrete empty plan returns success with the tree
untouched, and a concrete nop plan (zero changes) returns failure with
the tree untouched. -/
theorem migrate_empty_plan_zero_changes_witness :
    migrate envNoAI ⟨[]⟩ origA true false = (true, origA) ∧
    migrate envNoAI planNop origA true false = (false, origA) :=
  ⟨(migrate_empty_plan_zero_changes envNoAI ⟨[]⟩ origA true false).1 rfl,
   (migrate_empty_plan_zero_changes envNoAI planNop origA true false).2
      (by decide) (by decide)⟩

/-! ## C6: user rejection at the approval prompt -/

/-- Counterexample for C6: a concrete interactive run that reaches the
approval prompt (same run with a `y` answer commits, second conjunct)
returns `False` — failure, not a clean success — when the operator
answers `n`.  The claim says rejection is a successful-exit
cancellation; `migrate` line 79-81 instead returns `False` after echoing
a cancellation message (the "previewed but not applied" success return at
lines 94-96 is unreachable).  The original tree is untouched either way. -/
theorem migrate_rejection_counterexample :
    migrate envNoAI plan1 origA true false = (false, origA) ∧
    migrate { envNoAI with promptResponse := "y" } plan1 origA true false
      = (true, [([("a.py" : String)], "print(x)".toList),
                ([("a.py.modx_backup" : String)], "print x".toList)]) := by
  decide

/-- Claim C6 as amended: in interactive mode, any answer other than
`y`/`yes` at a run that reaches the approval prompt makes `migrate`
return failure (`False`, surfaced by the CLI as "cancelled or failed"),
with the original tree untouched. -/
theorem migrate_rejection_returns_failure (env : Env) (plan : Plan) (orig : FS) (a : Bool)
    (h1 : plan.steps ≠ [])
    (h2 : (tempState env plan orig).changes ≠ [])
    (h3 : env.validatorsPass (autoFixWhitespace (tempState env plan orig).work) = true)
    (h4 : sizeGateFails plan = false)
    (h5 : approvalYes env.promptResponse = false) :
    migrate env plan orig true a = (false, orig) := by
  have hne : plan.steps.isEmpty = false := List.isEmpty_eq_false.mpr h1
  unfold migrate
  split_ifs <;> simp_all

/-- Witness for the amended C6 at a concrete rejected run. -/
theorem migrate_rejection_returns_failure_witness :
    migrate { envNoAI with promptResponse := "no" } plan1 origA true false
      = (false, origA) :=
  migrate_rejection_returns_failure { envNoAI with promptResponse := "no" } plan1 origA false
    (by decide) (by decide) (by decide) (by decide) (by decide)

/-! ## C3: the DROP_STEP policy for missing declared targets -/

/-- A plan whose single step declares a target absent from the original
tree. -/
def planMissing : Plan :=
  ⟨[{ id := "python_print_function", files_affected := [[("missing.py" : String)]] }]⟩

/-- Counterexample for C3: with the model backend unavailable, a step
declaring `files_affected: ["missing.py"]` (absent from the original
tree) is *not* dropped: the missing-target check at `migrator.py`
lines 239-247 only runs under `if ai_available and targets`, so the
deterministic fallback still rewrites `a.py` — one Change record and no
warning — contradicting "this holds on every run, whether or not the
model backend is available". -/
theorem drop_step_unavailable_backend_counterexample :
    (tempState envNoAI planMissing origA).changes.map (·.file) = ["a.py"] ∧
    (tempState envNoAI planMissing origA).warnings = [] := by decide

/-- Claim C3 as amended: when the model backend *is* available, any step
whose resolved target list names at least one path missing from the
original tree is dropped before the AI request — it contributes no
Change records and no working-copy mutation — and a warning naming
exactly the missing paths is emitted.  (When the backend is unavailable,
the deterministic fallbacks ignore the declared target list, as the
counterexample shows; a step's explicit `patch` mapping is also applied
in the earlier patch phase regardless.) -/
theorem processStep_drops_missing (env : Env) (orig : FS) (deny : List String)
    (st : PipeState) (step : Step)
    (hai : env.aiAvailable = true)
    (ht : stepTargets deny st.work step ≠ [])
    (hm : (stepTargets deny st.work step).filter (fun f => !origExistsB env orig f) ≠ []) :
    processStep env orig deny st step =
      { st with warnings := st.warnings ++
          [⟨step.id, (stepTargets deny st.work step).filter (fun f => !origExistsB env orig f)⟩] } := by
  unfold processStep
  simp [hai, List.isEmpty_eq_false.mpr ht, List.isEmpty_eq_false.mpr hm]

/-- Witness for the amended C3: a concrete available-backend run where
the declared target `missing.py` is absent; the step is dropped with the
warning naming it and no Change. -/
theorem processStep_drops_missing_witness :
    processStep { envNoAI with aiAvailable := true } origA (tempDeny origA)
        ⟨origA, [], []⟩
        { id := "python_print_function", files_affected := [[("missing.py" : String)]] } =
      ⟨origA, [], [⟨"python_print_function", [[("missing.py" : String)]]⟩]⟩ :=
  (processStep_drops_missing { envNoAI with aiAvailable := true } origA (tempDeny origA)
      ⟨origA, [], []⟩
      { id := "python_print_function", files_affected := [[("missing.py" : String)]] }
      (by decide) (by decide) (by decide)).trans (by decide)

/-! ## C2: path containment of patch-phase and commit-phase writes -/

/-- Every segment of a resolved path already occurs in the unresolved
path (`..`/`.` only remove segments). -/
theorem resolveSegs_subset {l : List Seg} {s : Seg} (h : s ∈ resolveSegs l) : s ∈ l := by
  suffices H : ∀ (l acc : List Seg), ∀ s ∈ l.foldl
      (fun acc s => if s = ".." then acc.dropLast else if s = "." then acc else acc ++ [s]) acc,
      s ∈ acc ∨ s ∈ l by
    rcases H l [] s h with h' | h'
    · cases h'
    · exact h'
  intro l
  induction l with
  | nil => intro acc s hs; exact Or.inl hs
  | cons a t ih =>
    intro acc s hs
    simp only [List.foldl_cons] at hs
    rcases ih _ s hs with h' | h'
    · split_ifs at h' with h1 h2
      · exact Or.inl ((List.dropLast_sublist _).mem h')
      · exact Or.inl h'
      · rcases List.mem_append.mp h' with h'' | h''
        · exact Or.inl h''
        · simp at h''
          simp [h'']
    · simp [h']

/-- Alignment of slash-free segments: a rendered path that is a string
prefix of another and continues with a separator cannot end inside a
segment of the other unless that other path has no further separator. -/
theorem seg_append_prefix_nil {a b x : List Char} (ha : '/' ∉ a) (hb : '/' ∉ b) :
    ¬(a ++ '/' :: x <+: b) := by
  induction a generalizing b with
  | nil =>
    intro h
    exact hb (h.subset (by simp))
  | cons c a' ih =>
    intro h
    cases b with
    | nil => simpa using h.length_le
    | cons d b' =>
      rw [List.cons_append, List.cons_prefix_cons] at h
      exact ih (fun hx => ha (List.mem_cons_of_mem _ hx)) (fun hx => hb (List.mem_cons_of_mem _ hx)) h.2

/-- Alignment of slash-free segments at a separator on both sides: the
leading segments must be equal. -/
theorem seg_append_prefix_cons {a b x y : List Char} (ha : '/' ∉ a) (hb : '/' ∉ b)
    (h : a ++ '/' :: x <+: b ++ '/' :: y) : a = b ∧ x <+: y := by
  induction a generalizing b with
  | nil =>
    cases b with
    | nil => simpa using h
    | cons d b' =>
      rw [List.nil_append, List.cons_append, List.cons_prefix_cons] at h
      exact absurd (h.1 ▸ List.mem_cons_self d b') (fun hx => hb hx)
  | cons c a' ih =>
    cases b with
    | nil =>
      rw [List.nil_append, List.cons_append, List.cons_prefix_cons] at h
      exact absurd (h.1 ▸ List.mem_cons_self c a') (fun hx => ha hx)
    | cons d b' =>
      rw [List.cons_append, List.cons_append, List.cons_prefix_cons] at h
      obtain ⟨rfl, hrest⟩ := h
      obtain ⟨he, hxy⟩ := ih (fun hx => ha (List.mem_cons_of_mem _ hx))
        (fun hx => hb (List.mem_cons_of_mem _ hx)) hrest
      exact ⟨by rw [he], hxy⟩

/-- If the rendered string of `p` is a string prefix of the rendered
string of `q` (all segments slash-free), then all but possibly the last
segment of `p` are a segment prefix of `q`: the `startswith` test
confines a path only up to the *parent* of `p`, admitting sibling
directories whose name extends `p`'s last segment. -/
theorem pathStr_prefix_dropLast (p : List Seg) :
    ∀ (q : List Seg), (∀ s ∈ p, '/' ∉ s.toList) → (∀ s ∈ q, '/' ∉ s.toList) →
      pathStr p <+: pathStr q → p.dropLast <+: q := by
  induction p with
  | nil => intro q _ _ _; exact List.nil_prefix
  | cons a p' ih =>
    intro q hp hq h
    cases q with
    | nil =>
      exfalso
      have : pathStr (a :: p') = [] := List.prefix_nil.mp h
      simp [pathStr] at this
    | cons b q' =>
      have hstep : pathStr (a :: p') = '/' :: (a.toList ++ pathStr p') := by
        simp [pathStr]
      have hstep2 : pathStr (b :: q') = '/' :: (b.toList ++ pathStr q') := by
        simp [pathStr]
      rw [hstep, hstep2, List.cons_prefix_cons] at h
      cases p' with
      | nil => exact List.nil_prefix
      | cons a2 p'' =>
        cases q' with
        | nil =>
          exfalso
          have h2 : a.toList ++ '/' :: (a2.toList ++ pathStr p'') <+: b.toList := by
            simpa [pathStr] using h.2
          exact seg_append_prefix_nil (hp a (by simp)) (hq b (by simp)) h2
        | cons b2 q'' =>
          have h2 : a.toList ++ '/' :: (a2.toList ++ pathStr p'')
              <+: b.toList ++ '/' :: (b2.toList ++ pathStr q'') := by
            simpa [pathStr] using h.2
          obtain ⟨hab, hrest⟩ :=
            seg_append_prefix_cons (hp a (by simp)) (hq b (by simp)) h2
          have hab' : a = b := String.ext hab
          have hsub : pathStr (a2 :: p'') <+: pathStr (b2 :: q'') := by
            simp only [pathStr, List.map_cons, List.flatten_cons]
            exact List.cons_prefix_cons.mpr ⟨rfl, hrest⟩
          have := ih (b2 :: q'') (fun s hs => hp s (List.mem_cons_of_mem _ hs))
            (fun s hs => hq s (List.mem_cons_of_mem _ hs)) hsub
          subst hab'
          have hgoal : a :: (a2 :: p'').dropLast <+: a :: b2 :: q'' :=
            List.cons_prefix_cons.mpr ⟨rfl, this⟩
          simpa using hgoal

/-- Counterexample for C2: a patch entry `../serviceX/a.py` (with the
sibling path existing on disk next to the service) passes the
patch-phase guard of `migrator.py` line 176 — the guard is a *string*
prefix test, and `/tmp/mx/serviceX` starts with `/tmp/mx/service` as a
string — yet its resolved path is not a descendant of the working root,
so the write lands outside the working copy instead of being skipped. -/
theorem patch_containment_counterexample :
    patchWriteAllowed baselineDeny ["tmp", "mx", "service"]
        (fun r => r == [("..": String), "serviceX", "a.py"])
        [("..": String), "serviceX", "a.py"] = true ∧
    ¬(["tmp", "mx", "service"] <+:
        resolveSegs (["tmp", "mx", "service"] ++ [("..": String), "serviceX", "a.py"])) := by
  decide

/-- Claim C2 as amended: the patch-phase guard confines writes only up to
the *parent* of the working root — every allowed target resolves under
`workRoot.dropLast`, but a `../` path resolving to a sibling directory
whose name extends the root's last segment passes the string-prefix
check (counterexample above) — while the commit-phase guard is exact:
any destination it accepts resolves inside the original root. -/
theorem containment_guards (deny : List String) (workRoot : List Seg)
    (ex : RelPath → Bool) (rel : RelPath) (root : List Seg) (rel2 : RelPath) :
    (patchWriteAllowed deny workRoot ex rel = true →
      (∀ s ∈ workRoot, '/' ∉ s.toList) → (∀ s ∈ rel, '/' ∉ s.toList) →
      workRoot.dropLast <+: resolveSegs (workRoot ++ rel)) ∧
    (commitGuard root rel2 = true → root <+: resolveSegs (root ++ rel2)) := by
  constructor
  · intro h hw hr
    have hpre : (pathStr workRoot).isPrefixOf
        (pathStr (resolveSegs (workRoot ++ rel))) = true := by
      unfold patchWriteAllowed pyStartswith at h
      simp only [Bool.and_eq_true] at h
      exact h.1.2
    have hres : ∀ s ∈ resolveSegs (workRoot ++ rel), '/' ∉ s.toList := by
      intro s hs
      rcases List.mem_append.mp (resolveSegs_subset hs) with h' | h'
      · exact hw s h'
      · exact hr s h'
    exact pathStr_prefix_dropLast workRoot (resolveSegs (workRoot ++ rel)) hw hres
      (List.isPrefixOf_iff_prefix.mp hpre)
  · intro h
    unfold commitGuard at h
    exact (List.isPrefixOf_iff_prefix.mp h).trans (List.dropLast_prefix _)

/-- Witness for the amended C2: a clean relative path passes the patch
guard and stays under the working root's parent, and a commit
destination accepted by the commit guard resolves inside the original
root. -/
theorem containment_guards_witness :
    ["tmp", "mx", "service"].dropLast <+:
      resolveSegs (["tmp", "mx", "service"] ++ [("a.py" : String)]) ∧
    ["home", "svc"] <+: resolveSegs (["home", "svc"] ++ [("pkg" : String), "a.py"]) :=
  ⟨(containment_guards baselineDeny ["tmp", "mx", "service"] (fun _ => true)
      [("a.py" : String)] ["home", "svc"] [("pkg" : String), "a.py"]).1
        (by decide) (by decide) (by decide),
   (containment_guards baselineDeny ["tmp", "mx", "service"] (fun _ => true)
      [("a.py" : String)] ["home", "svc"] [("pkg" : String), "a.py"]).2 (by decide)⟩

/-! ## C8: deduplication of the final Change list -/

/-- First occurrences of a list, in order, given an already-seen set
(the reference notion of "first-seen order, one entry per file"). -/
def firstSeenFrom (seen : List String) : List String → List String
  | [] => []
  | f :: rest =>
    if f ∈ seen then firstSeenFrom seen rest
    else f :: firstSeenFrom (f :: seen) rest

theorem firstSeenFrom_cons (seen : List String) (f : String) (rest : List String) :
    firstSeenFrom seen (f :: rest) =
      if f ∈ seen then firstSeenFrom seen rest
      else f :: firstSeenFrom (f :: seen) rest := rfl

/-- The maximum `lines_changed` reported over all entries of a change
list for a given file (0 when none). -/
def linesOf : List Change → String → Nat
  | [], _ => 0
  | c :: cs, f => if c.file == f then max c.linesChanged (linesOf cs f) else linesOf cs f

theorem map_file_bumpFirst (c : Change) (l : List Change) :
    (bumpFirst c l).map (·.file) = l.map (·.file) := by
  induction l with
  | nil => rfl
  | cons e rest ih =>
    unfold bumpFirst
    split_ifs with h
    · simp_all
    · simp [ih]

theorem linesOf_nil (f : String) : linesOf [] f = 0 := rfl

theorem linesOf_cons (c : Change) (cs : List Change) (f : String) :
    linesOf (c :: cs) f =
      if c.file == f then max c.linesChanged (linesOf cs f) else linesOf cs f := rfl

theorem linesOf_eq_zero_of_not_mem {l : List Change} {f : String}
    (h : f ∉ l.map (·.file)) : linesOf l f = 0 := by
  induction l with
  | nil => rfl
  | cons e rest ih =>
    rw [linesOf_cons]
    have h1 : ¬e.file = f := fun he => h (by simp [he])
    simp only [beq_iff_eq, h1, if_false]
    exact ih (fun hm => h (by simp [hm]))

theorem linesOf_append (l1 l2 : List Change) (f : String) :
    linesOf (l1 ++ l2) f = max (linesOf l1 f) (linesOf l2 f) := by
  induction l1 with
  | nil => simp [linesOf_nil]
  | cons e rest ih =>
    rw [List.cons_append, linesOf_cons, linesOf_cons, ih]
    split_ifs with h
    · rw [Nat.max_assoc]
    · rfl

theorem linesOf_bumpFirst {c : Change} {l : List Change}
    (hmem : c.file ∈ l.map (·.file)) (f : String) :
    linesOf (bumpFirst c l) f =
      if c.file == f then max c.linesChanged (linesOf l f) else linesOf l f := by
  induction l with
  | nil => cases hmem
  | cons e rest ih =>
    unfold bumpFirst
    by_cases he : e.file = c.file
    · rw [if_pos (by simpa using he), linesOf_cons, linesOf_cons]
      show (if e.file == f then max (max e.linesChanged c.linesChanged) (linesOf rest f)
            else linesOf rest f) = _
      by_cases hf : c.file = f
      · have hef : e.file = f := he.trans hf
        rw [if_pos (by simpa using hef), if_pos (by simpa using hf),
          if_pos (by simpa using hef), ← Nat.max_assoc,
          Nat.max_comm e.linesChanged c.linesChanged, Nat.max_assoc]
      · have hef : ¬e.file = f := fun h2 => hf (he ▸ h2)
        rw [if_neg (by simpa using hef), if_neg (by simpa using hf),
          if_neg (by simpa using hef)]
    · rw [if_neg (by simpa using he)]
      have hmem' : c.file ∈ rest.map (·.file) := by
        rcases List.mem_map.mp hmem with ⟨x, hx, hfx⟩
        rcases List.mem_cons.mp hx with rfl | hx'
        · exact absurd hfx (by simpa [eq_comm] using he)
        · exact List.mem_map.mpr ⟨x, hx', hfx⟩
      rw [linesOf_cons, linesOf_cons, ih hmem']
      by_cases hf : c.file = f <;> by_cases hef : e.file = f
      · exact absurd (hef.trans hf.symm) he
      · simp [hf, hef]
      · simp [hf, hef]
      · simp [hf, hef]

theorem linesOf_dedupStep (acc : List Change) (c : Change) (f : String) :
    linesOf (dedupStep acc c) f = max (linesOf acc f) (linesOf [c] f) := by
  unfold dedupStep
  split_ifs with h
  · have hmem : c.file ∈ acc.map (·.file) := by
      rcases List.any_eq_true.mp h with ⟨e, he, hef⟩
      exact List.mem_map.mpr ⟨e, he, by simpa using hef⟩
    rw [linesOf_bumpFirst hmem f, linesOf_cons, linesOf_nil]
    by_cases hf : c.file = f
    · rw [if_pos (by simpa using hf), if_pos (by simpa using hf), Nat.max_zero,
        Nat.max_comm]
    · rw [if_neg (by simpa using hf), if_neg (by simpa using hf), Nat.max_zero]
  · rw [linesOf_append]

theorem files_dedupStep (acc : List Change) (c : Change) :
    (dedupStep acc c).map (·.file) =
      if c.file ∈ acc.map (·.file) then acc.map (·.file)
      else acc.map (·.file) ++ [c.file] := by
  unfold dedupStep
  by_cases h : acc.any (fun e => e.file == c.file)
  · have hm : c.file ∈ acc.map (·.file) := by
      rcases List.any_eq_true.mp h with ⟨e, he, hef⟩
      exact List.mem_map.mpr ⟨e, he, by simpa using hef⟩
    rw [if_pos h, if_pos hm, map_file_bumpFirst]
  · have hm : c.file ∉ acc.map (·.file) := by
      intro hc
      rcases List.mem_map.mp hc with ⟨e, he, hef⟩
      exact h (List.any_eq_true.mpr ⟨e, he, by simpa using hef⟩)
    rw [if_neg (by simpa using h), if_neg hm]
    simp

theorem firstSeenFrom_congr {s1 s2 : List String} (h : ∀ x, x ∈ s1 ↔ x ∈ s2) :
    ∀ l, firstSeenFrom s1 l = firstSeenFrom s2 l := by
  intro l
  induction l generalizing s1 s2 with
  | nil => rfl
  | cons f rest ih =>
    unfold firstSeenFrom
    by_cases hf : f ∈ s2
    · rw [if_pos ((h f).mpr hf), if_pos hf]
      exact ih h
    · rw [if_neg (fun hx => hf ((h f).mp hx)), if_neg hf]
      have := @ih (f :: s1) (f :: s2) (fun x => by simp [List.mem_cons, h x])
      rw [this]

theorem nodup_append_firstSeenFrom (l : List String) :
    ∀ seen, seen.Nodup → (seen ++ firstSeenFrom seen l).Nodup := by
  induction l with
  | nil => intro seen h; simpa [firstSeenFrom]
  | cons f rest ih =>
    intro seen h
    unfold firstSeenFrom
    split_ifs with hf
    · exact ih seen h
    · have h2 := ih (f :: seen) (List.nodup_cons.mpr ⟨hf, h⟩)
      have hperm : (seen ++ f :: firstSeenFrom (f :: seen) rest).Perm
          (f :: seen ++ firstSeenFrom (f :: seen) rest) := List.perm_middle
      exact hperm.nodup_iff.mpr (by simpa using h2)

theorem dedup_go (cs : List Change) :
    ∀ acc : List Change, (acc.map (·.file)).Nodup →
      ((cs.foldl dedupStep acc).map (·.file) =
        acc.map (·.file) ++ firstSeenFrom (acc.map (·.file)) (cs.map (·.file))) ∧
      ∀ f, linesOf (cs.foldl dedupStep acc) f = max (linesOf acc f) (linesOf cs f) := by
  induction cs with
  | nil =>
    intro acc _
    refine ⟨by simp [firstSeenFrom], fun f => ?_⟩
    simp [linesOf]
  | cons c rest ih =>
    intro acc hnodup
    rw [List.foldl_cons]
    have hfiles := files_dedupStep acc c
    have hnodup' : ((dedupStep acc c).map (·.file)).Nodup := by
      rw [hfiles]
      split_ifs with hc
      · exact hnodup
      · exact (List.perm_append_singleton _ _).nodup_iff.mpr
          (List.nodup_cons.mpr ⟨hc, hnodup⟩)
    obtain ⟨ihf, ihl⟩ := ih (dedupStep acc c) hnodup'
    constructor
    · rw [ihf, hfiles]
      by_cases hc : c.file ∈ acc.map (·.file)
      · rw [if_pos hc]
        have hr : firstSeenFrom (acc.map (·.file)) ((c :: rest).map (·.file)) =
            firstSeenFrom (acc.map (·.file)) (rest.map (·.file)) := by
          rw [List.map_cons, firstSeenFrom_cons, if_pos hc]
        rw [hr]
      · rw [if_neg hc]
        have hr : firstSeenFrom (acc.map (·.file)) ((c :: rest).map (·.file)) =
            c.file :: firstSeenFrom (c.file :: acc.map (·.file)) (rest.map (·.file)) := by
          rw [List.map_cons, firstSeenFrom_cons, if_neg hc]
        rw [hr, List.append_assoc]
        congr 1
        show [c.file] ++ firstSeenFrom (acc.map (·.file) ++ [c.file]) (rest.map (·.file)) =
          [c.file] ++ firstSeenFrom (c.file :: acc.map (·.file)) (rest.map (·.file))
        congr 1
        exact firstSeenFrom_congr (fun x => by simp [or_comm]) _
    · intro f
      rw [ihl f, linesOf_dedupStep]
      have hsplit : linesOf (c :: rest) f = max (linesOf [c] f) (linesOf rest f) := by
        have : c :: rest = [c] ++ rest := rfl
        rw [this, linesOf_append]
      rw [hsplit, Nat.max_assoc]

theorem linesOf_of_mem_nodup {l : List Change} (hnodup : (l.map (·.file)).Nodup)
    {c : Change} (hc : c ∈ l) : linesOf l c.file = c.linesChanged := by
  induction l with
  | nil => cases hc
  | cons e rest ih =>
    rcases List.mem_cons.mp hc with rfl | hc'
    · unfold linesOf
      have : c.file ∉ rest.map (·.file) := (List.nodup_cons.mp hnodup).1
      rw [linesOf_eq_zero_of_not_mem this]
      simp
    · have hne : ¬e.file = c.file := by
        intro he
        have hm : c.file ∈ rest.map (·.file) := List.mem_map.mpr ⟨c, hc', rfl⟩
        apply (List.nodup_cons.mp hnodup).1
        show e.file ∈ rest.map (·.file)
        rw [he]
        exact hm
      unfold linesOf
      simp only [beq_iff_eq, hne, if_false]
      exact ih (List.nodup_cons.mp hnodup).2 hc'

/-- Claim C8: the Change list returned by the patch pipeline
(`dedupChanges`, the final pass of `_apply_changes_to_temp`) has at most
one entry per file path (`Nodup` of the files), the entries appear in
first-seen order (the files are exactly the first occurrences of the
input's file sequence), and each surviving entry's `lines_changed` is
the maximum reported over all input entries for that file. -/
theorem dedupChanges_spec (cs : List Change) :
    ((dedupChanges cs).map (·.file)).Nodup ∧
    (dedupChanges cs).map (·.file) = firstSeenFrom [] (cs.map (·.file)) ∧
    ∀ c ∈ dedupChanges cs, c.linesChanged = linesOf cs c.file := by
  obtain ⟨hf, hl⟩ := dedup_go cs [] (by simp)
  have hfiles : (dedupChanges cs).map (·.file) = firstSeenFrom [] (cs.map (·.file)) := by
    simpa [dedupChanges] using hf
  have hnodup : ((dedupChanges cs).map (·.file)).Nodup := by
    rw [hfiles]
    simpa using nodup_append_firstSeenFrom (cs.map (·.file)) [] (by simp)
  refine ⟨hnodup, hfiles, fun c hc => ?_⟩
  have h1 : linesOf (dedupChanges cs) c.file = c.linesChanged :=
    linesOf_of_mem_nodup hnodup hc
  have h2 : linesOf (dedupChanges cs) c.file = linesOf cs c.file := by
    have := hl c.file
    simpa [dedupChanges, linesOf] using this
  rw [← h2, h1]

/-- A concrete change list with a duplicated file. -/
def csDup : List Change :=
  [⟨"a.py", "ai_patch", 3⟩, ⟨"b.py", "es6_syntax", 1⟩, ⟨"a.py", "python_print_fix", 7⟩]

/-- Witness for C8 at a concrete duplicated input: the surviving `a.py`
entry carries the maximum count 7. -/
theorem dedupChanges_spec_witness :
    (Change.mk "a.py" "ai_patch" 7).linesChanged = linesOf csDup "a.py" :=
  (dedupChanges_spec csDup).2.2 ⟨"a.py", "ai_patch", 7⟩ (by decide)

/-! ## C9: the `es6_syntax` fallback never emits `const` -/

theorem replaceFirst_of_prefixTrue {pat s : Content} (rep : Content)
    (h : pat.isPrefixOf s = true) : replaceFirst pat rep s = rep ++ s.drop pat.length := by
  cases s with
  | nil =>
    have hp : pat = [] := List.prefix_nil.mp (List.isPrefixOf_iff_prefix.mp h)
    subst hp
    simp [replaceFirst]
  | cons c t =>
    unfold replaceFirst
    rw [if_pos h]

theorem pyIsSpace_not_word {c : Char} (h : pyIsSpace c = true) : isWordChar c = false := by
  unfold pyIsSpace at h
  simp only [Bool.or_eq_true, decide_eq_true_eq] at h
  rcases h with ((((h | h) | h) | h) | h) | h <;> subst h <;> decide

theorem reassignScan_cons (v : Content) (prev : Option Char) (c : Char) (t : Content) :
    reassignScan v prev (c :: t) =
      ((boundaryOk prev && v.isPrefixOf (c :: t) && matchesEqAfter ((c :: t).drop v.length))
        || reassignScan v (some c) t) := rfl

/-- If an occurrence of `v` followed by `\s*=` sits right after a chunk
`a` whose last character is a non-word character (or `a` is empty and the
boundary context allows it), the regex scan finds it. -/
theorem reassignScan_found (v : Content) (hv : v ≠ []) :
    ∀ (a : Content) (prev : Option Char) (tail : Content),
      v.isPrefixOf tail = true →
      matchesEqAfter (tail.drop v.length) = true →
      (a = [] → boundaryOk prev = true) →
      (∀ x, a.getLast? = some x → isWordChar x = false) →
      reassignScan v prev (a ++ tail) = true := by
  intro a
  induction a with
  | nil =>
    intro prev tail hpre hme hb _
    cases tail with
    | nil =>
      exact absurd (List.prefix_nil.mp (List.isPrefixOf_iff_prefix.mp hpre)) hv
    | cons c t =>
      rw [List.nil_append, reassignScan_cons, hb rfl, hpre, hme]
      rfl
  | cons c a' ih =>
    intro prev tail hpre hme _ hlast
    rw [List.cons_append, reassignScan_cons]
    have hrec : reassignScan v (some c) (a' ++ tail) = true := by
      apply ih (some c) tail hpre hme
      · intro ha'
        subst ha'
        have hc := hlast c (by simp)
        simp [boundaryOk, hc]
      · intro x hx
        apply hlast x
        cases a' with
        | nil => simp at hx
        | cons q qs =>
          rw [List.getLast?_cons_cons]
          exact hx
    rw [hrec, Bool.or_true]

/-- A successful anchored match of `var\s+(\w+)\s*=` yields an `=` in the
line and a successful reassignment scan for the captured name, over any
preceding context: the whitespace required by `\s+` supplies the `\b`
boundary, and the match's own `\s*=` satisfies the reassignment regex. -/
theorem varAssignAt_reassign (pre l v : Content) (h : varAssignAt l = some v) :
    '=' ∈ l ∧ reassignScan v none (pre ++ l) = true := by
  unfold varAssignAt at h
  split_ifs at h with h1 h2 h3 h4
  have hv : v = ((l.drop 3).dropWhile pyIsSpace).takeWhile isWordChar :=
    (Option.some.inj h).symm
  have htake3 : "var".toList = l.take 3 :=
    List.prefix_iff_eq_take.mp (List.isPrefixOf_iff_prefix.mp h1)
  have hl3 : l = "var".toList ++ l.drop 3 := by
    conv_lhs => rw [← List.take_append_drop 3 l]
    rw [← htake3]
  have hrest : l.drop 3 =
      (l.drop 3).takeWhile pyIsSpace ++ (l.drop 3).dropWhile pyIsSpace :=
    (List.takeWhile_append_dropWhile pyIsSpace _).symm
  have hrest2 : (l.drop 3).dropWhile pyIsSpace =
      v ++ ((l.drop 3).dropWhile pyIsSpace).dropWhile isWordChar := by
    rw [hv]
    exact (List.takeWhile_append_dropWhile isWordChar _).symm
  have hsp : (l.drop 3).takeWhile pyIsSpace ≠ [] := by
    simpa using h2
  have hvne : v ≠ [] := by
    rw [hv]
    simpa using h3
  constructor
  · have hmem : '=' ∈ ((((l.drop 3).dropWhile pyIsSpace).dropWhile isWordChar).dropWhile
        pyIsSpace) := by
      apply List.mem_of_mem_head?
      simpa using h4
    have hmem2 : '=' ∈ l.drop 3 :=
      (List.dropWhile_sublist _).subset
        ((List.dropWhile_sublist _).subset ((List.dropWhile_sublist _).subset hmem))
    exact (List.drop_sublist 3 l).subset hmem2
  · have hdecomp : pre ++ l =
        (pre ++ ("var".toList ++ (l.drop 3).takeWhile pyIsSpace))
          ++ (l.drop 3).dropWhile pyIsSpace := by
      conv_lhs => rw [hl3]
      conv_lhs => rw [hrest]
      simp [List.append_assoc]
    rw [hdecomp]
    apply reassignScan_found v hvne _ none _
    · rw [hrest2]
      exact List.isPrefixOf_iff_prefix.mpr ⟨_, rfl⟩
    · have hdrop : ((l.drop 3).dropWhile pyIsSpace).drop v.length =
          ((l.drop 3).dropWhile pyIsSpace).dropWhile isWordChar := by
        conv_lhs => rw [hrest2]
        exact List.drop_left _ _
      rw [hdrop]
      unfold matchesEqAfter
      exact h4
    · intro hcontra
      exact absurd hcontra (by simp)
    · intro x hx
      rw [List.getLast?_append, List.getLast?_append] at hx
      cases hsplast : ((l.drop 3).takeWhile pyIsSpace).getLast? with
      | none =>
        exact absurd (List.getLast?_eq_none_iff.mp hsplast) hsp
      | some y =>
        rw [hsplast] at hx
        simp only [Option.or_some, Option.some.injEq] at hx
        subst hx
        exact pyIsSpace_not_word
          (List.mem_takeWhile_imp (List.mem_of_getLast?_eq_some hsplast))

/-- A `re.search` hit is an anchored hit on some suffix. -/
theorem findVarAssign_decomp {l v : Content} (h : findVarAssign l = some v) :
    ∃ pre t, l = pre ++ t ∧ varAssignAt t = some v := by
  induction l with
  | nil => cases h
  | cons c rest ih =>
    unfold findVarAssign at h
    cases ha : varAssignAt (c :: rest) with
    | some w =>
      rw [ha] at h
      exact ⟨[], c :: rest, rfl, ha.trans h⟩
    | none =>
      rw [ha] at h
      obtain ⟨pre, t, hl, hat⟩ := ih h
      exact ⟨c :: pre, t, by rw [List.cons_append, ← hl], hat⟩

theorem mem_dictSet {d : List (Content × VarKind)} {w v : Content} {kv k : VarKind}
    (h : (v, k) ∈ dictSet d w kv) : (v = w ∧ k = kv) ∨ (v, k) ∈ d := by
  unfold dictSet at h
  split_ifs at h with hd
  · rcases List.mem_map.mp h with ⟨e, he, heq⟩
    by_cases hw : e.1 == w
    · rw [if_pos hw] at heq
      left
      exact ⟨(Prod.mk.injEq _ _ _ _ ▸ heq).1.symm, (Prod.mk.injEq _ _ _ _ ▸ heq).2.symm⟩
    · rw [if_neg hw] at heq
      right
      rw [← heq]
      exact he
  · rcases List.mem_append.mp h with he | he
    · right
      exact he
    · left
      have := List.mem_singleton.mp he
      exact ⟨congrArg Prod.fst this, congrArg Prod.snd this⟩

/-- A `const` entry of the first scan can only come from an anchored
initialized-declaration match on some line. -/
theorem scanVars_const_origin (lines : List Content) :
    ∀ (acc : List (Content × VarKind)) (v : Content),
      (v, VarKind.vconst) ∈ lines.foldl scanVarsLine acc →
      (v, VarKind.vconst) ∈ acc ∨ ∃ l ∈ lines, findVarAssign l = some v := by
  induction lines with
  | nil =>
    intro acc v h
    exact Or.inl h
  | cons l rest ih =>
    intro acc v h
    rw [List.foldl_cons] at h
    rcases ih _ v h with h' | h'
    · unfold scanVarsLine at h'
      split_ifs at h' with hvar
      · cases hfa : findVarAssign l with
        | some w =>
          rw [hfa] at h'
          rcases mem_dictSet h' with ⟨rfl, _⟩ | hmem
          · exact Or.inr ⟨l, by simp, hfa⟩
          · exact Or.inl hmem
        | none =>
          rw [hfa] at h'
          cases hfd : findVarDecl l with
          | some w =>
            rw [hfd] at h'
            rcases mem_dictSet h' with ⟨_, hk⟩ | hmem
            · cases hk
            · exact Or.inl hmem
          | none =>
            rw [hfd] at h'
            exact Or.inl h'
      · exact Or.inl h'
    · obtain ⟨l', hl', hfa⟩ := h'
      exact Or.inr ⟨l', List.mem_cons_of_mem _ hl', hfa⟩

/-- No variable ever survives the second loop as `const`: the
declaration line itself contains `=` and matches the reassignment regex,
so every captured initialized declaration is downgraded to `let`. -/
theorem finalVarKinds_no_const (lines : List Content) (v : Content) :
    (v, VarKind.vconst) ∉ finalVarKinds lines := by
  intro h
  unfold finalVarKinds at h
  rcases List.mem_map.mp h with ⟨e, he, heq⟩
  by_cases hcond : lines.any (fun l => l.contains '=' && lineReassigns e.1 l)
  · rw [if_pos hcond] at heq
    cases (Prod.mk.injEq _ _ _ _ ▸ heq).2
  · rw [if_neg hcond] at heq
    have h1 : e.1 = v := by rw [heq]
    rw [heq] at he
    rcases scanVars_const_origin lines [] v he with h0 | ⟨l, hl, hfa⟩
    · cases h0
    · obtain ⟨pre, t, hlt, hat⟩ := findVarAssign_decomp hfa
      obtain ⟨heq', hscan⟩ := varAssignAt_reassign pre t v hat
      apply hcond
      refine List.any_eq_true.mpr ⟨l, hl, ?_⟩
      rw [h1]
      have hceq : l.contains '=' = true := by
        have : '=' ∈ l := by
          rw [hlt]
          exact List.mem_append.mpr (Or.inr heq')
        simpa [List.contains] using this
      have hre : lineReassigns v l = true := by
        unfold lineReassigns
        rw [hlt]
        exact hscan
      rw [hceq, hre]
      rfl

/-- A working copy holding a single JS file with a never-reassigned
`var`. -/
def origJs : FS := [([("app.js" : String)], "var x = 1;\nconsole.log(x);".toList)]

/-- Counterexample for C9: `x` is declared once and never reassigned
after its declaration, so the claim requires `const x`; the pipeline's
inline fallback rewrites it to `let x` (first conjunct, note the
trailing-newline quirk of the inline rewriter), and the
`JSMigrator._transform_js_content` variant also produces `let` — its
reassignment scan matches the declaration line itself — with no `const`
anywhere in its output (second and third conjuncts). -/
theorem es6_const_counterexample :
    (es6FS (tempDeny origJs) origJs).1
      = [([("app.js" : String)], "let x = 1;\nconsole.log(x);\n".toList)] ∧
    transformJsVars "var x = 1;\nconsole.log(x);".toList
      = "let x = 1;\nconsole.log(x);".toList ∧
    containsSub "const".toList (transformJsVars "var x = 1;\nconsole.log(x);".toList)
      = false := by
  decide

/-- Claim C9 as amended: under the `es6_syntax` deterministic fallback,
every `var` declaration line is rewritten with `let`, never `const`,
regardless of reassignment: the in-pipeline fallback substitutes `let`
unconditionally (first conjunct gives its exact output shape), and in
the `JSMigrator` variant no variable can end up `const` (second
conjunct), because the reassignment scan matches the declaration line
itself. -/
theorem es6_var_always_let :
    (∀ l : Content, es6Cond l = true →
      es6Line l = l.take (l.length - (pyLstrip l).length)
        ++ ("let ".toList ++ (pyLstrip l).drop 4)) ∧
    (∀ (lines : List Content) (v : Content), (v, VarKind.vconst) ∉ finalVarKinds lines) := by
  constructor
  · intro l h
    unfold es6Line
    rw [if_pos h]
    have hpre : ("var ".toList).isPrefixOf (pyLstrip l) = true := h
    rw [replaceFirst_of_prefixTrue _ hpre]
    have h4 : ("var ".toList).length = 4 := rfl
    rw [h4]
  · exact finalVarKinds_no_const

/-- Witness for the amended C9 at a concrete declaration line and
variable table. -/
theorem es6_var_always_let_witness :
    es6Line "var x = 1;".toList = "let x = 1;".toList ∧
    ("x".toList, VarKind.vconst) ∉ finalVarKinds ["var x = 1;".toList] :=
  ⟨(es6_var_always_let.1 "var x = 1;".toList (by decide)).trans (by decide),
   es6_var_always_let.2 ["var x = 1;".toList] "x".toList⟩

/-! ## C5: commit backups, untouched identical files, no deletions -/

theorem fsFind_cons (e : RelPath × Content) (t : FS) (q : RelPath) :
    fsFind (e :: t) q = if e.1 == q then some e.2 else fsFind t q := by
  unfold fsFind
  rw [List.find?_cons]
  cases h : e.1 == q <;> simp [h]

theorem fsFind_set (fs : FS) (p q : RelPath) (c : Content) :
    fsFind (fsSet fs p c) q = if q = p then some c else fsFind fs q := by
  induction fs with
  | nil =>
    show fsFind [(p, c)] q = _
    rw [fsFind_cons]
    by_cases h : q = p
    · rw [if_pos (by simp [h]), if_pos h]
    · rw [if_neg (by simp only [beq_iff_eq]; exact fun h2 => h h2.symm), if_neg h]
  | cons e t ih =>
    by_cases he : e.1 = p
    · have h1 : fsSet (e :: t) p c = (p, c) :: t := by
        show (if e.1 == p then (p, c) :: t else e :: fsSet t p c) = _
        rw [if_pos (by simp [he])]
      rw [h1, fsFind_cons, fsFind_cons]
      by_cases hq : q = p
      · rw [if_pos (by simp [hq]), if_pos hq]
      · rw [if_neg (by simp only [beq_iff_eq]; exact fun h2 => hq h2.symm), if_neg hq,
          if_neg (by simp only [beq_iff_eq]; exact fun h2 => hq (h2.symm.trans he))]
    · have h1 : fsSet (e :: t) p c = e :: fsSet t p c := by
        show (if e.1 == p then (p, c) :: t else e :: fsSet t p c) = _
        rw [if_neg (by simp [he])]
      rw [h1, fsFind_cons, fsFind_cons, ih]
      by_cases heq : e.1 = q
      · have hq : ¬q = p := fun h2 => he (heq.trans h2)
        rw [if_pos (by simp [heq]), if_neg hq, if_pos (by simp [heq])]
      · rw [if_neg (by simp [heq])]
        by_cases hq : q = p
        · rw [if_pos hq, if_pos hq]
        · rw [if_neg hq, if_neg hq, if_neg (by simp [heq])]

theorem fsFind_isSome_set (fs : FS) (p q : RelPath) (c : Content)
    (h : (fsFind fs q).isSome) : (fsFind (fsSet fs p c) q).isSome := by
  rw [fsFind_set]
  by_cases hq : q = p
  · simp [hq]
  · rw [if_neg hq]
    exact h

theorem exists_concat_of_ne {p : RelPath} (h : p ≠ []) : ∃ l a, p = l ++ [a] :=
  ⟨p.dropLast, p.getLast h, (List.dropLast_concat_getLast h).symm⟩

theorem lastSeg_concat (l : List Seg) (a : Seg) : lastSeg (l ++ [a]) = a := by
  unfold lastSeg
  rw [List.getLastD_eq_getLast?, List.getLast?_concat]
  rfl

theorem backupPath_concat (l : List Seg) (a : Seg) :
    backupPath (l ++ [a]) = l ++ [backupSeg a] := by
  unfold backupPath
  rw [lastSeg_concat, List.dropLast_concat]

theorem backupSeg_toList (s : Seg) :
    (backupSeg s).toList = s.toList ++ ".modx_backup".toList := rfl

theorem backupSeg_inj {s t : Seg} (h : backupSeg s = backupSeg t) : s = t := by
  have h2 : s.toList ++ ".modx_backup".toList = t.toList ++ ".modx_backup".toList := by
    rw [← backupSeg_toList, ← backupSeg_toList, h]
  exact String.ext (List.append_cancel_right h2)

theorem backupPath_inj {p q : RelPath} (hp : p ≠ []) (hq : q ≠ [])
    (h : backupPath p = backupPath q) : p = q := by
  obtain ⟨l, a, rfl⟩ := exists_concat_of_ne hp
  obtain ⟨m, b, rfl⟩ := exists_concat_of_ne hq
  rw [backupPath_concat, backupPath_concat] at h
  obtain ⟨h1, h2⟩ := List.append_inj' h rfl
  have hab : a = b := backupSeg_inj (by simpa using h2)
  rw [h1, hab]

theorem backupPath_ne_self {p : RelPath} (hp : p ≠ []) : backupPath p ≠ p := by
  obtain ⟨l, a, rfl⟩ := exists_concat_of_ne hp
  rw [backupPath_concat]
  intro h
  obtain ⟨-, h2⟩ := List.append_inj' h rfl
  have h3 : backupSeg a = a := by simpa using h2
  have h4 := congrArg (fun s => s.toList.length) h3
  simp only [backupSeg_toList, List.length_append] at h4
  have h5 : (".modx_backup".toList).length = 12 := rfl
  rw [h5] at h4
  omega

theorem pySuffix_backup (x : Char) (m : Content) :
    pySuffix ((x :: m) ++ ".modx_backup".toList) = ".modx_backup".toList := by
  have key : (((x :: m) ++ ".modx_backup".toList).reverse.takeWhile (fun c => !(c == '.')))
      = "pukcab_xdom".toList := by
    rw [List.reverse_append, List.takeWhile_append, if_neg (by decide)]
    decide
  unfold pySuffix
  rw [key]
  have h11 : ("pukcab_xdom".toList).length = 11 := rfl
  have hlen : ((x :: m) ++ ".modx_backup".toList).length = m.length + 13 := by
    simp only [List.length_append, List.length_cons]
    have : (".modx_backup".toList).length = 12 := rfl
    omega
  rw [h11, hlen]
  rw [if_neg (by simp only [beq_iff_eq]; omega)]
  rw [if_neg (by decide)]
  rw [if_neg (by simp only [beq_iff_eq]; omega)]
  decide

theorem allowedFile_not_backup {name : Content} (h : allowedFile name = true)
    (m : Content) : name ≠ m ++ ".modx_backup".toList := by
  intro heq
  subst heq
  cases m with
  | nil => exact absurd h (by decide)
  | cons x m' =>
    unfold allowedFile at h
    rw [pySuffix_backup] at h
    simp only [Bool.or_eq_true] at h
    rcases h with h | h
    · exact absurd h (by decide)
    · have hmem : ((x :: m') ++ ".modx_backup".toList).map Char.toLower
          = "dockerfile".toList ∨
        ((x :: m') ++ ".modx_backup".toList).map Char.toLower = "makefile".toList := by
        simpa [List.contains] using h
      have hlen : (((x :: m') ++ ".modx_backup".toList).map Char.toLower).length
          = m'.length + 13 := by
        simp only [List.length_map, List.length_append, List.length_cons]
        have : (".modx_backup".toList).length = 12 := rfl
        omega
      rcases hmem with h2 | h2
      · have := congrArg List.length h2
        rw [hlen] at this
        have h10 : ("dockerfile".toList).length = 10 := rfl
        rw [h10] at this
        omega
      · have := congrArg List.length h2
        rw [hlen] at this
        have h8 : ("makefile".toList).length = 8 := rfl
        rw [h8] at this
        omega

/-- An allow-listed file name can never be a backup destination. -/
theorem allowed_ne_backupPath {q : RelPath} (hq : allowedFile (lastSeg q).toList = true)
    (e1 : RelPath) (he1 : e1 ≠ []) : q ≠ backupPath e1 := by
  intro h
  obtain ⟨l, a, rfl⟩ := exists_concat_of_ne he1
  rw [backupPath_concat] at h
  have hlast : lastSeg q = backupSeg a := by
    rw [h, lastSeg_concat]
  exact allowedFile_not_backup hq a.toList (by rw [hlast, backupSeg_toList])

theorem commitStep_find_other (root : List Seg) (deny : List String) (acc : FS)
    (e : RelPath × Content) {q : RelPath}
    (h1 : allowedFile (lastSeg e.1).toList = true → q ≠ e.1)
    (h2 : q ≠ backupPath e.1) :
    fsFind (commitStep root deny acc e) q = fsFind acc q := by
  unfold commitStep
  split_ifs with hd ha hg
  · rfl
  · rfl
  · rfl
  · have hq1 : q ≠ e.1 := h1 (by simpa using ha)
    cases hf : fsFind acc e.1 with
    | some old =>
      simp only [hf]
      by_cases hc : old == e.2
      · rw [if_pos hc]
      · rw [if_neg hc, fsFind_set, if_neg hq1, fsFind_set, if_neg h2]
    | none =>
      simp only [hf]
      rw [fsFind_set, if_neg hq1]

theorem commitStep_isSome (root : List Seg) (deny : List String) (acc : FS)
    (e : RelPath × Content) (q : RelPath) (h : (fsFind acc q).isSome) :
    (fsFind (commitStep root deny acc e) q).isSome := by
  unfold commitStep
  split_ifs with hd ha hg
  · exact h
  · exact h
  · exact h
  · cases hf : fsFind acc e.1 with
    | some old =>
      simp only [hf]
      by_cases hc : old == e.2
      · rw [if_pos hc]
        exact h
      · rw [if_neg hc]
        exact fsFind_isSome_set _ _ _ _ (fsFind_isSome_set _ _ _ _ h)
    | none =>
      simp only [hf]
      exact fsFind_isSome_set _ _ _ _ h

theorem commit_fold_pres (root : List Seg) (deny : List String) :
    ∀ (ws : List (RelPath × Content)) (acc : FS) (q : RelPath),
      (∀ e ∈ ws, (allowedFile (lastSeg e.1).toList = true → q ≠ e.1)
        ∧ q ≠ backupPath e.1) →
      fsFind (ws.foldl (commitStep root deny) acc) q = fsFind acc q := by
  intro ws
  induction ws with
  | nil => intro acc q _; rfl
  | cons e rest ih =>
    intro acc q h
    rw [List.foldl_cons,
      ih _ q (fun x hx => h x (List.mem_cons_of_mem _ hx))]
    exact commitStep_find_other root deny acc e (h e (by simp)).1 (h e (by simp)).2

theorem commitStep_overwrite (root : List Seg) (deny : List String) (acc : FS)
    (rel : RelPath) (c : Content)
    (hdeny : isDeniedRel deny rel = false)
    (hallow : allowedFile (lastSeg rel).toList = true)
    (hguard : commitGuard root rel = true)
    (old : Content) (hold : fsFind acc rel = some old) (hnec : old ≠ c) :
    commitStep root deny acc (rel, c)
      = fsSet (fsSet acc (backupPath rel) old) rel c := by
  unfold commitStep
  dsimp only
  rw [if_neg (by rw [hdeny]; decide), if_neg (by rw [hallow]; decide),
    if_neg (by rw [hguard]; decide), hold]
  dsimp only
  rw [if_neg (by simpa using hnec)]

theorem commitStep_identical (root : List Seg) (deny : List String) (acc : FS)
    (rel : RelPath) (c : Content)
    (hdeny : isDeniedRel deny rel = false)
    (hallow : allowedFile (lastSeg rel).toList = true)
    (hguard : commitGuard root rel = true)
    (hold : fsFind acc rel = some c) :
    commitStep root deny acc (rel, c) = acc := by
  unfold commitStep
  dsimp only
  rw [if_neg (by rw [hdeny]; decide), if_neg (by rw [hallow]; decide),
    if_neg (by rw [hguard]; decide), hold]
  dsimp only
  rw [if_pos (by simp)]

theorem commit_fold_isSome (root : List Seg) (deny : List String) :
    ∀ (ws : List (RelPath × Content)) (acc : FS) (q : RelPath),
      (fsFind acc q).isSome →
      (fsFind (ws.foldl (commitStep root deny) acc) q).isSome := by
  intro ws
  induction ws with
  | nil => intro acc q h; exact h
  | cons e rest ih =>
    intro acc q h
    rw [List.foldl_cons]
    exact ih _ q (commitStep_isSome root deny acc e q h)

/-- Counterexample for C5: a `.txt` file whose bytes differ between the
working copy and the original — it existed before and differs, so the
claim as stated requires a backup and an overwrite — is skipped entirely
by commit because `.txt` is not in the extension allow-list: the original
is untouched and no `.modx_backup` file is created. -/
theorem commit_txt_counterexample :
    applyChangesToOriginal ["home", "svc"] baselineDeny
        [([("notes.txt" : String)], "new contents".toList)]
        [([("notes.txt" : String)], "old contents".toList)]
      = [([("notes.txt" : String)], "old contents".toList)] ∧
    fsFind (applyChangesToOriginal ["home", "svc"] baselineDeny
        [([("notes.txt" : String)], "new contents".toList)]
        [([("notes.txt" : String)], "old contents".toList)])
        [("notes.txt.modx_backup" : String)] = none := by
  decide

/-- Claim C5 as amended: during commit, for every *allow-listed,
non-deny-listed, in-root* destination file, if it existed in the
original tree with differing bytes then the pre-commit content is saved
at the `.modx_backup`-suffixed path and the file is overwritten with the
working-copy content; if the bytes are identical the file and its backup
path are left untouched; and no file present in the original tree is
ever deleted by commit.  (Files outside the allow-list are skipped
entirely — neither overwritten nor backed up — as the counterexample
shows.) -/
theorem commit_backup_invariant (root : List Seg) (deny : List String)
    (work orig : FS) (rel : RelPath) (c : Content)
    (hnodup : (work.map (·.1)).Nodup)
    (hne : ∀ e ∈ work, e.1 ≠ [])
    (hmem : (rel, c) ∈ work)
    (hdeny : isDeniedRel deny rel = false)
    (hallow : allowedFile (lastSeg rel).toList = true)
    (hguard : commitGuard root rel = true) :
    (∀ old, fsFind orig rel = some old → old ≠ c →
      fsFind (applyChangesToOriginal root deny work orig) rel = some c ∧
      fsFind (applyChangesToOriginal root deny work orig) (backupPath rel) = some old) ∧
    (fsFind orig rel = some c →
      fsFind (applyChangesToOriginal root deny work orig) rel = some c ∧
      fsFind (applyChangesToOriginal root deny work orig) (backupPath rel)
        = fsFind orig (backupPath rel)) ∧
    (∀ p, (fsFind orig p).isSome →
      (fsFind (applyChangesToOriginal root deny work orig) p).isSome) := by
  obtain ⟨pre, post, hsplit⟩ := List.append_of_mem hmem
  have hrelne : rel ≠ [] := hne (rel, c) hmem
  have hfilesplit : work.map (·.1) = pre.map (·.1) ++ rel :: post.map (·.1) := by
    rw [hsplit]
    simp
  have hnodup2 : (pre.map (·.1) ++ rel :: post.map (·.1)).Nodup := by
    rw [← hfilesplit]
    exact hnodup
  have hd := List.nodup_append.mp hnodup2
  have hrelpre : rel ∉ pre.map (·.1) := fun hin => hd.2.2 hin (by simp)
  have hrelpost : rel ∉ post.map (·.1) := (List.nodup_cons.mp hd.2.1).1
  have hmemw : ∀ e, e ∈ pre ∨ e ∈ post → e ∈ work := by
    intro e hx
    rw [hsplit]
    rcases hx with hx | hx
    · exact List.mem_append.mpr (Or.inl hx)
    · exact List.mem_append.mpr (Or.inr (List.mem_cons_of_mem _ hx))
  have hrel_ne : ∀ e, e ∈ pre ∨ e ∈ post → rel ≠ e.1 := by
    intro e hx hc
    rcases hx with hx | hx
    · exact hrelpre (by rw [hc]; exact List.mem_map.mpr ⟨e, hx, rfl⟩)
    · exact hrelpost (by rw [hc]; exact List.mem_map.mpr ⟨e, hx, rfl⟩)
  have hrel_cond : ∀ e, e ∈ pre ∨ e ∈ post →
      (allowedFile (lastSeg e.1).toList = true → rel ≠ e.1) ∧ rel ≠ backupPath e.1 :=
    fun e hx => ⟨fun _ => hrel_ne e hx,
      allowed_ne_backupPath hallow e.1 (hne e (hmemw e hx))⟩
  have hback_cond : ∀ e, e ∈ pre ∨ e ∈ post →
      (allowedFile (lastSeg e.1).toList = true → backupPath rel ≠ e.1)
        ∧ backupPath rel ≠ backupPath e.1 := by
    intro e hx
    constructor
    · intro hea heq
      exact allowed_ne_backupPath hea rel hrelne heq.symm
    · intro heq
      exact hrel_ne e hx (backupPath_inj hrelne (hne e (hmemw e hx)) heq)
  have hfold : applyChangesToOriginal root deny work orig
      = post.foldl (commitStep root deny)
          (commitStep root deny (pre.foldl (commitStep root deny) orig) (rel, c)) := by
    unfold applyChangesToOriginal
    rw [hsplit, List.foldl_append, List.foldl_cons]
  have hK1 : fsFind (pre.foldl (commitStep root deny) orig) rel = fsFind orig rel :=
    commit_fold_pres root deny pre orig rel (fun e hx => hrel_cond e (Or.inl hx))
  have hK1b : fsFind (pre.foldl (commitStep root deny) orig) (backupPath rel)
      = fsFind orig (backupPath rel) :=
    commit_fold_pres root deny pre orig (backupPath rel)
      (fun e hx => hback_cond e (Or.inl hx))
  refine ⟨?_, ?_, ?_⟩
  · intro old hold hnec
    have hstep := commitStep_overwrite root deny (pre.foldl (commitStep root deny) orig)
      rel c hdeny hallow hguard old (hK1.trans hold) hnec
    constructor
    · rw [hfold, hstep,
        commit_fold_pres root deny post _ rel (fun e hx => hrel_cond e (Or.inr hx)),
        fsFind_set, if_pos rfl]
    · rw [hfold, hstep,
        commit_fold_pres root deny post _ (backupPath rel)
          (fun e hx => hback_cond e (Or.inr hx)),
        fsFind_set, if_neg (backupPath_ne_self hrelne), fsFind_set, if_pos rfl]
  · intro hold
    have hstep := commitStep_identical root deny (pre.foldl (commitStep root deny) orig)
      rel c hdeny hallow hguard (hK1.trans hold)
    constructor
    · rw [hfold, hstep,
        commit_fold_pres root deny post _ rel (fun e hx => hrel_cond e (Or.inr hx))]
      exact hK1.trans hold
    · rw [hfold, hstep,
        commit_fold_pres root deny post _ (backupPath rel)
          (fun e hx => hback_cond e (Or.inr hx))]
      exact hK1b
  · intro p hp
    unfold applyChangesToOriginal
    exact commit_fold_isSome root deny work orig p hp

/-- Witness for the amended C5 at a concrete differing file: `a.py` is
overwritten and its old content saved at `a.py.modx_backup`. -/
theorem commit_backup_invariant_witness :
    fsFind (applyChangesToOriginal ["home", "svc"] baselineDeny
        [([("a.py" : String)], "print(x)".toList)]
        [([("a.py" : String)], "print x".toList)]) [("a.py" : String)]
      = some "print(x)".toList ∧
    fsFind (applyChangesToOriginal ["home", "svc"] baselineDeny
        [([("a.py" : String)], "print(x)".toList)]
        [([("a.py" : String)], "print x".toList)])
        (backupPath [("a.py" : String)])
      = some "print x".toList :=
  (commit_backup_invariant ["home", "svc"] baselineDeny
      [([("a.py" : String)], "print(x)".toList)]
      [([("a.py" : String)], "print x".toList)]
      [("a.py" : String)] "print(x)".toList
      (by decide) (by decide) (by decide) (by decide) (by decide) (by decide)).1
    "print x".toList (by decide) (by decide)

/-! ## C7: idempotence of the deterministic transformers -/

theorem splitOn_never_nil (x : Char) (xs : Content) : xs.splitOn x ≠ [] :=
  List.splitOnP_ne_nil _ xs

theorem splitOn_sound {x : Char} : ∀ (xs : Content), ∀ l ∈ xs.splitOn x, x ∉ l := by
  intro xs
  induction xs with
  | nil =>
    intro l hl
    rw [List.splitOn_nil] at hl
    rw [List.mem_singleton.mp hl]
    simp
  | cons a t ih =>
    intro l hl
    simp only [List.splitOn] at hl ih
    rw [List.splitOnP_cons] at hl
    by_cases hax : (a == x) = true
    · rw [if_pos hax] at hl
      rcases List.mem_cons.mp hl with h1 | h2
      · rw [h1]; simp
      · exact ih l h2
    · rw [if_neg hax] at hl
      cases ht : t.splitOnP (· == x) with
      | nil => exact absurd ht (List.splitOnP_ne_nil _ t)
      | cons h0 rest =>
        rw [ht, List.modifyHead_cons] at hl
        rcases List.mem_cons.mp hl with h1 | h2
        · rw [h1]
          intro hxmem
          rcases List.mem_cons.mp hxmem with h3 | h4
          · exact hax (by rw [h3]; simp)
          · exact ih h0 (by rw [ht]; exact List.mem_cons_self _ _) h4
        · exact ih l (by rw [ht]; exact List.mem_cons_of_mem _ h2)

theorem splitOn_sep_first {a : Content} (b : Content) (h : '\n' ∉ a) :
    (a ++ '\n' :: b).splitOn '\n' = a :: b.splitOn '\n' := by
  have h2 : ∀ y ∈ a, ¬((y == '\n') = true) := by
    intro y hy hb
    exact h (beq_iff_eq.mp hb ▸ hy)
  simp only [List.splitOn]
  exact List.splitOnP_first (· == '\n') a h2 '\n' (by simp) b

theorem mem_replaceFirst {x : Char} (pat rep : Content) :
    ∀ s : Content, x ∈ replaceFirst pat rep s → x ∈ rep ∨ x ∈ s := by
  intro s
  induction s with
  | nil =>
    intro h
    unfold replaceFirst at h
    by_cases hp : pat.isPrefixOf ([] : Content) = true
    · rw [if_pos hp] at h
      exact Or.inl h
    · rw [if_neg hp] at h
      exact Or.inr h
  | cons a t ih =>
    intro h
    unfold replaceFirst at h
    by_cases hp : pat.isPrefixOf (a :: t) = true
    · rw [if_pos hp] at h
      rcases List.mem_append.mp h with h1 | h2
      · exact Or.inl h1
      · exact Or.inr (List.mem_of_mem_drop h2)
    · rw [if_neg hp] at h
      rcases List.mem_cons.mp h with h1 | h2
      · exact Or.inr (h1 ▸ List.mem_cons_self a t)
      · rcases ih h2 with h3 | h4
        · exact Or.inl h3
        · exact Or.inr (List.mem_cons_of_mem _ h4)

theorem fixPrintLine_newline_free {l : Content} (h : '\n' ∉ l) :
    '\n' ∉ fixPrintLine l := by
  unfold fixPrintLine
  by_cases hc : printCond l = true
  · rw [if_pos hc]
    intro hmem
    rcases List.mem_append.mp hmem with h1 | h2
    · rcases mem_replaceFirst _ _ l h1 with h3 | h4
      · exact absurd h3 (by decide)
      · exact h h4
    · exact absurd h2 (by decide)
  · rw [if_neg hc]
    exact h

theorem printCond_concat_rparen (s : Content) : printCond (s ++ [')']) = false := by
  unfold printCond
  have h1 : ∃ r, pyLstrip (s ++ [')']) = r ++ [')'] := by
    unfold pyLstrip
    rw [List.dropWhile_append]
    by_cases he : (s.dropWhile pyIsSpace).isEmpty = true
    · rw [if_pos he]
      exact ⟨[], by decide⟩
    · rw [if_neg he]
      exact ⟨s.dropWhile pyIsSpace, rfl⟩
  obtain ⟨r, hr⟩ := h1
  unfold pyStrip
  rw [hr]
  have h2 : pyRstrip (r ++ [')']) = r ++ [')'] := by
    unfold pyRstrip
    have hrev : (r ++ [')']).reverse = ')' :: r.reverse := by simp
    rw [hrev, List.dropWhile_cons, if_neg (by decide)]
    simp
  rw [h2, List.getLast?_concat]
  simp

theorem printCond_fixPrintLine (l : Content) : printCond (fixPrintLine l) = false := by
  unfold fixPrintLine
  by_cases h : printCond l = true
  · rw [if_pos h]
    exact printCond_concat_rparen _
  · rw [if_neg h]
    exact Bool.eq_false_iff.mpr h

theorem importSplice_zero_lines (s l : Content)
    (hl : l ∈ ("from typing import Any\n\n".toList ++ s).splitOn '\n') :
    l ∈ s.splitOn '\n' ∨ l = "from typing import Any".toList ∨ l = [] := by
  have hre : "from typing import Any\n\n".toList ++ s
      = "from typing import Any".toList ++ '\n' :: (([] : Content) ++ '\n' :: s) := rfl
  rw [hre, splitOn_sep_first _ (by decide), splitOn_sep_first _ (by simp)] at hl
  rcases List.mem_cons.mp hl with h1 | h2
  · exact Or.inr (Or.inl h1)
  · rcases List.mem_cons.mp h2 with h3 | h4
    · exact Or.inr (Or.inr h3)
    · exact Or.inl h4

theorem pyImportFix_lines (s : Content) :
    ∀ l ∈ (pyImportFix s).splitOn '\n',
      l ∈ s.splitOn '\n' ∨ l = "from typing import Any".toList ∨ l = [] := by
  intro l hl
  unfold pyImportFix at hl
  by_cases hcond : (containsSub "-> Any".toList s
      && !containsSub "from typing import Any".toList s) = true
  case neg =>
    rw [if_neg hcond] at hl
    exact Or.inl hl
  case pos =>
    rw [if_pos hcond] at hl
    dsimp only at hl
    by_cases hsb : pyStartswith s "#!".toList = true
    case neg =>
      rw [if_neg hsb] at hl
      simp only [List.take_zero, List.drop_zero, List.nil_append] at hl
      exact importSplice_zero_lines s l hl
    case pos =>
      rw [if_pos hsb] at hl
      cases hfi : s.findIdx? (· == '\n') with
      | none =>
        rw [hfi] at hl
        dsimp only at hl
        simp only [List.take_zero, List.drop_zero, List.nil_append] at hl
        exact importSplice_zero_lines s l hl
      | some idx =>
        rw [hfi] at hl
        dsimp only at hl
        obtain ⟨hlt, hp, hall⟩ := List.findIdx?_eq_some_iff_getElem.mp hfi
        have hnl : s[idx] = '\n' := beq_iff_eq.mp hp
        have htake1 : s.take (idx + 1) = s.take idx ++ ['\n'] := by
          rw [List.take_succ, List.getElem?_eq_getElem hlt, hnl]
          rfl
        have hfree : '\n' ∉ s.take idx := by
          intro hmem
          obtain ⟨n, hn, hEq⟩ := List.mem_iff_getElem.mp hmem
          have hnlt : n < idx := by
            have := List.length_take idx s
            omega
          have hq : s[n]? = some '\n' := by
            rw [← List.getElem?_take_of_lt hnlt]
            rw [List.getElem?_eq_getElem hn, hEq]
          obtain ⟨hn2, hEq2⟩ := List.getElem?_eq_some_iff.mp hq
          exact hall n hnlt (by simp [hEq2])
        have hsplit_s : s.splitOn '\n' = s.take idx :: (s.drop (idx + 1)).splitOn '\n' := by
          conv_lhs => rw [show s = s.take idx ++ '\n' :: s.drop (idx + 1) from by
            conv_lhs => rw [← List.take_append_drop (idx + 1) s]
            rw [htake1]
            simp]
          rw [splitOn_sep_first _ hfree]
        have hre : s.take (idx + 1) ++ "from typing import Any\n\n".toList
              ++ s.drop (idx + 1)
            = s.take idx ++ '\n'
              :: ("from typing import Any\n\n".toList ++ s.drop (idx + 1)) := by
          rw [htake1]
          simp
        rw [hre, splitOn_sep_first _ hfree] at hl
        rcases List.mem_cons.mp hl with h1 | h2
        · left
          rw [hsplit_s, h1]
          exact List.mem_cons_self _ _
        · rcases importSplice_zero_lines (s.drop (idx + 1)) l h2 with h3 | h3
          · left
            rw [hsplit_s]
            exact List.mem_cons_of_mem _ h3
          · exact Or.inr h3

theorem fixPrintContent_lines (c : Content) :
    ∀ l ∈ (fixPrintContent c).splitOn '\n', printCond l = false := by
  intro l hl
  unfold fixPrintContent at hl
  dsimp only at hl
  by_cases hc : (c.splitOn '\n').any printCond = true
  case neg =>
    rw [if_neg hc] at hl
    have hfalse := List.any_eq_false.mp (Bool.eq_false_iff.mpr hc)
    exact Bool.eq_false_iff.mpr (hfalse l hl)
  case pos =>
    rw [if_pos hc] at hl
    have hM_free : ∀ m ∈ (c.splitOn '\n').map fixPrintLine, '\n' ∉ m := by
      intro m hm
      obtain ⟨l0, hl0, rfl⟩ := List.mem_map.mp hm
      exact fixPrintLine_newline_free (splitOn_sound c l0 hl0)
    have hM_ne : (c.splitOn '\n').map fixPrintLine ≠ [] := by
      intro hnil
      exact splitOn_never_nil '\n' c (List.map_eq_nil_iff.mp hnil)
    have hsplit_j : (joinLines ((c.splitOn '\n').map fixPrintLine)).splitOn '\n'
        = (c.splitOn '\n').map fixPrintLine :=
      List.splitOn_intercalate _ '\n' hM_free hM_ne
    rcases pyImportFix_lines _ l hl with h1 | h2 | h3
    · rw [hsplit_j] at h1
      obtain ⟨l0, -, rfl⟩ := List.mem_map.mp h1
      exact printCond_fixPrintLine l0
    · rw [h2]
      decide
    · rw [h3]
      decide

theorem fixPrintContent_no_trigger {c : Content}
    (h : (c.splitOn '\n').any printCond = false) : fixPrintContent c = c := by
  unfold fixPrintContent
  dsimp only
  rw [if_neg (by simp [h])]

theorem infix_joinLines_of_mem {l : Content} {ls : List Content} (h : l ∈ ls) :
    l <:+: joinLines ls := by
  have hmem : l ∈ List.intersperse ['\n'] ls := by
    induction ls with
    | nil => cases h
    | cons a t ih =>
      cases t with
      | nil => simpa using h
      | cons b t2 =>
        rw [List.intersperse_cons_cons]
        rcases List.mem_cons.mp h with h1 | h2
        · rw [h1]
          exact List.mem_cons_self _ _
        · exact List.mem_cons_of_mem _ (List.mem_cons_of_mem _ (ih h2))
  exact List.infix_of_mem_flatten hmem

theorem marker_infix_pyMarkerLine : markerToken <:+: pyMarkerLine := by decide

theorem hasMarker_joinLines {ls : List Content} (h : pyMarkerLine ∈ ls) (tail : Content) :
    hasMarker (joinLines ls ++ tail) = true :=
  decide_eq_true ((marker_infix_pyMarkerLine.trans (infix_joinLines_of_mem h)).trans
    (List.prefix_append (joinLines ls) tail).isInfix)

theorem hasMarker_jsPre (n : Content) : hasMarker (jsMarkerPre ++ n) = true :=
  decide_eq_true ((show markerToken <:+: jsMarkerPre by decide).trans
    (List.prefix_append jsMarkerPre n).isInfix)

theorem hasMarker_insertMarker (n : Content) (lang : MLang) :
    hasMarker (insertMarker n lang) = true := by
  unfold insertMarker
  by_cases h : hasMarker n = true
  · rw [if_pos h]
    exact h
  · rw [if_neg h]
    cases lang with
    | py =>
      dsimp only
      cases hsp : pySplitlines n with
      | nil => exact hasMarker_joinLines (by simp) ['\n']
      | cons l0 rest =>
        dsimp only
        by_cases hsb : pyStartswith l0 "#!".toList = true
        · rw [if_pos hsb]
          exact hasMarker_joinLines (by simp) ['\n']
        · rw [if_neg hsb]
          exact hasMarker_joinLines (by simp) ['\n']
    | js => exact hasMarker_jsPre n
    | ts => exact hasMarker_jsPre n
    | go => exact hasMarker_jsPre n

theorem apply_output_has_marker {validOk : Content → Bool} {lang : MLang}
    {transformFunc : Content → Content} {c o : Content}
    (h : applySafeTransformation validOk lang transformFunc c = some o) :
    hasMarker o = true := by
  unfold applySafeTransformation at h
  by_cases h1 : hasMarker c = true
  · rw [if_pos h1] at h
    exact Option.noConfusion h
  · rw [if_neg h1] at h
    dsimp only at h
    by_cases h2 : transformFunc c = c
    · rw [if_pos h2] at h
      exact Option.noConfusion h
    · rw [if_neg h2] at h
      by_cases h3 : (!validOk (transformFunc c)) = true
      · rw [if_pos h3] at h
        exact Option.noConfusion h
      · rw [if_neg h3] at h
        rw [← Option.some.inj h]
        exact hasMarker_insertMarker (transformFunc c) lang

/-- Counterexample for C7 as stated: the deterministic Python print-statement
fixer `_fix_python_print_statements` (`migrator.py` lines 519-550) never
consults the `MODX_DETERMINISTIC_FALLBACK` marker — a file whose content
already carries the marker is rewritten again, so "a file whose content
already contains the marker is never transformed again" fails for this
transformer. -/
theorem print_fix_ignores_marker_counterexample :
    hasMarker "# MODX_DETERMINISTIC_FALLBACK\nprint x".toList = true ∧
    fixPrintContent "# MODX_DETERMINISTIC_FALLBACK\nprint x".toList
      ≠ "# MODX_DETERMINISTIC_FALLBACK\nprint x".toList := by
  decide

/-- Claim C7 as amended: (1) the print-statement fixer is idempotent — its
output never re-triggers the rewrite, so a second pass is the identity on
its result — but this holds structurally, not via the marker, which it
ignores (see the counterexample); (2) `apply_safe_transformation`
(`migrators/utils.py` lines 141-158) refuses (returns no-change) whenever
the marker is already present; and (3) every content it does emit carries
the marker, so running it twice yields no change the second time. -/
theorem deterministic_idempotence (validOk : Content → Bool) (lang : MLang)
    (transformFunc : Content → Content) (c o : Content) :
    (fixPrintContent (fixPrintContent c) = fixPrintContent c) ∧
    (hasMarker c = true → applySafeTransformation validOk lang transformFunc c = none) ∧
    (applySafeTransformation validOk lang transformFunc c = some o →
      applySafeTransformation validOk lang transformFunc o = none) := by
  refine ⟨?_, ?_, ?_⟩
  · exact fixPrintContent_no_trigger
      (List.any_eq_false.mpr fun l hl =>
        Bool.eq_false_iff.mp (fixPrintContent_lines c l hl))
  · intro h
    unfold applySafeTransformation
    rw [if_pos h]
  · intro h
    unfold applySafeTransformation
    rw [if_pos (apply_output_has_marker h)]

/-- Witness for the amended C7: a marked Python file is refused, and a
concrete `js` transformation is accepted once, emits the marker, and is
refused on its own output. -/
theorem deterministic_idempotence_witness :
    hasMarker "# MODX_DETERMINISTIC_FALLBACK".toList = true ∧
    applySafeTransformation (fun _ => true) MLang.py (fun s => s)
        "# MODX_DETERMINISTIC_FALLBACK".toList = none ∧
    applySafeTransformation (fun _ => true) MLang.js (fun _ => "y".toList)
        ([] : Content) = some (jsMarkerPre ++ "y".toList) ∧
    applySafeTransformation (fun _ => true) MLang.js (fun _ => "y".toList)
        (jsMarkerPre ++ "y".toList) = none :=
  ⟨by decide,
   (deterministic_idempotence (fun _ => true) MLang.py (fun s => s)
      "# MODX_DETERMINISTIC_FALLBACK".toList []).2.1 (by decide),
   by decide,
   (deterministic_idempotence (fun _ => true) MLang.js (fun _ => "y".toList) []
      (jsMarkerPre ++ "y".toList)).2.2 (by decide)⟩
